import Mathlib

/-!
Carousel viewer: light extraction, carousel physics, camera and frame orchestration

A shallow embedding of the simulation logic of `ModelLoader.cpp` and `main.cpp`.

* Vertex data and the carousel scalars are modelled over `ℚ` (exact arithmetic: every
  finite float is a rational), which keeps the clustering loop and the per-frame
  velocity/rotation updates executable. The clustering threshold is the value of the
  `float` literal `0.15f`.
* The key debounce blocks and the draw calls of a frame are modelled on booleans and
  finite lists, and are executable.
* The free-camera constraint, the mouse callback, the `glm` transforms and the light
  uploads take square roots, sines and cosines whose values are stored, so they are
  modelled over `ℝ`.
* The free-camera constraint is modelled twice: in exact arithmetic (`constrainCamera`)
  and with every operation rounded to IEEE binary32 (`constrainCameraF32`), which is how
  the program evaluates it.
* The clustering loop is modelled twice as well: with the distance test in exact
  arithmetic (`clusterCenters`, executable) and with every operation of the test rounded
  to IEEE binary32 (`clusterCentersF32`).
-/

set_option autoImplicit false

namespace Carousel

/-! ## Vectors -/

/-- The `glm::vec3` of a mesh vertex, with exact rational components. -/
structure Vec3 where
  x : ℚ
  y : ℚ
  z : ℚ
  deriving DecidableEq, Repr

/-- The squared Euclidean length of `a - b`: `glm::dot(a - b, a - b)`. -/
def dist2 (a b : Vec3) : ℚ :=
  (a.x - b.x) * (a.x - b.x) + (a.y - b.y) * (a.y - b.y) + (a.z - b.z) * (a.z - b.z)

/-! ## `ModelLoader::loadModel`: the clustering loop -/

/-- The constant `clusterThreshold = 0.15f` of `loadModel`: the `float` nearest to 0.15,
which is `5033165 / 2^25 = 0.150000005960464...`, slightly above 0.15. -/
def clusterThreshold : ℚ := 5033165 / 33554432

/-- The test `glm::distance(center, pos) < clusterThreshold` of the inner loop, with the
distance taken in exact arithmetic (the code rounds each operation to `float`; that
evaluation is `nearF32`). `glm::distance` is the square root of `dist2`; the threshold is
positive, so the comparison is the comparison of the squares (see `near_iff_sqrt`). -/
def near (center pos : Vec3) : Bool :=
  decide (dist2 center pos < clusterThreshold * clusterThreshold)

/-- The inner loop `for (auto& center : clusterCenters)`: it sets `foundCluster` at the
first center within the threshold of `pos` and breaks. -/
def foundCluster : List Vec3 → Vec3 → Bool
  | [], _ => false
  | center :: rest, pos => if near center pos then true else foundCluster rest pos

/-- The outer loop `for (v = 0; v < mNumVertices; v++)` over the remaining vertices, with
the current `clusterCenters`: a vertex that found no cluster is pushed back, and the loop
breaks once `clusterCenters.size() >= 64`. -/
def clusterLoop : List Vec3 → List Vec3 → List Vec3
  | [], clusterCenters => clusterCenters
  | pos :: rest, clusterCenters =>
    if foundCluster clusterCenters pos then clusterLoop rest clusterCenters
    else
      if (clusterCenters ++ [pos]).length ≥ 64 then clusterCenters ++ [pos]
      else clusterLoop rest (clusterCenters ++ [pos])

/-- The cluster centers of one light-bearing mesh: the loop started on the empty
`clusterCenters`. -/
def clusterCenters (vertices : List Vec3) : List Vec3 :=
  clusterLoop vertices []

/-! ## `ModelLoader::loadModel`: the mesh name test -/

/-- The lowering `std::transform(..., ::tolower)` of the mesh name. -/
def toLowerName (meshName : List Char) : List Char :=
  meshName.map Char.toLower

/-- Whether `needle` starts `s` (the comparison `std::string::find` makes at one offset). -/
def startsWith : List Char → List Char → Bool
  | [], _ => true
  | _ :: _, [] => false
  | c :: needle, d :: s => if c = d then startsWith needle s else false

/-- The search of `std::string::find(needle)`: the first offset at which `needle`
occurs in `s`, `none` standing for `std::string::npos`. -/
def find : List Char → List Char → Option Nat
  | [], needle => if startsWith needle [] then some 0 else none
  | c :: rest, needle =>
    if startsWith needle (c :: rest) then some 0 else (find rest needle).map (· + 1)

/-- The condition on line 39: the lowered name contains `bulb`, `light` or `lit`. -/
def isLightMesh (lowered : List Char) : Bool :=
  (find lowered "bulb".toList).isSome || (find lowered "light".toList).isSome
    || (find lowered "lit".toList).isSome

/-- One `aiMesh` as `loadModel` reads it: its name and its vertex positions. -/
structure MeshData where
  name : List Char
  vertices : List Vec3

/-- The anchors one mesh appends to `bulbPositions`: its cluster centers when the
lowered name passes the test, nothing otherwise. -/
def meshBulbs (mesh : MeshData) : List Vec3 :=
  if isLightMesh (toLowerName mesh.name) then clusterCenters mesh.vertices else []

/-- The member `bulbPositions` after the loop over `scene->mMeshes`: starting empty,
each mesh's cluster centers are inserted at the end, in mesh order. -/
def loadModel (meshes : List MeshData) : List Vec3 :=
  meshes.foldl (fun bulbPositions mesh => bulbPositions ++ meshBulbs mesh) []

/-- The spec's name test: some contiguous part of `name` equals `needle` when letter
case is ignored (`needle` is given in lower case). -/
def ContainsIgnoreCase (name needle : List Char) : Prop :=
  ∃ pre mid post, name = pre ++ mid ++ post ∧ mid.map Char.toLower = needle

/-- The spec's light-bearing predicate on a mesh name. -/
def LightBearing (name : List Char) : Prop :=
  ContainsIgnoreCase name "bulb".toList ∨ ContainsIgnoreCase name "light".toList
    ∨ ContainsIgnoreCase name "lit".toList

/-! ## `main`: carousel velocity and rotation (frame loop) -/

/-- The constant `angularAcceleration = 0.005f`. -/
def angularAcceleration : ℚ := 5 / 1000

/-- The arrow-key block of the frame loop, on the two key levels it polls:
RIGHT pressed accelerates and clamps at `1.5`; otherwise LEFT pressed decelerates and
clamps at `0`; otherwise the velocity is left alone. -/
def updateVelocity (rightPressed leftPressed : Bool) (angularVelocity : ℚ) : ℚ :=
  if rightPressed then
    if angularVelocity + angularAcceleration > 15 / 10 then 15 / 10
    else angularVelocity + angularAcceleration
  else if leftPressed then
    if angularVelocity - angularAcceleration < 0 then 0
    else angularVelocity - angularAcceleration
  else angularVelocity

/-- The angular velocity after a sequence of frames, each given by the levels of the
RIGHT and LEFT keys polled in it. -/
def runVelocity (frames : List (Bool × Bool)) (angularVelocity : ℚ) : ℚ :=
  frames.foldl (fun av keys => updateVelocity keys.1 keys.2 av) angularVelocity

/-- The two statements `rotation += angularVelocity * 0.5f;` and
`if (rotation > 360.0f) rotation -= 360.0f;` of one frame. -/
def updateRotation (angularVelocity rotation : ℚ) : ℚ :=
  if rotation + angularVelocity * (1 / 2) > 360 then
    rotation + angularVelocity * (1 / 2) - 360
  else rotation + angularVelocity * (1 / 2)

/-- The stored `rotation` after `n` frames with `angularVelocity` held at `1.5`,
from `rotation = 0`. -/
def spinAtFullSpeed : Nat → ℚ
  | 0 => 0
  | n + 1 => updateRotation (15 / 10) (spinAtFullSpeed n)

/-- The spec's `raw mod 360`: the remainder of `x` by `m` in `[0, m)`. -/
def ratMod (x m : ℚ) : ℚ :=
  x - m * ⌊x / m⌋

/-! ## `main`: the free-camera constraint (frame loop) -/

/-- A `glm::vec2` with real components. -/
structure Vec2 where
  x : ℝ
  y : ℝ

/-- The `cameraPos` vector with real components. -/
structure CameraPos where
  x : ℝ
  y : ℝ
  z : ℝ

/-- The function `glm::length` on `vec2`, in exact arithmetic. -/
noncomputable def length (v : Vec2) : ℝ :=
  Real.sqrt (v.x * v.x + v.y * v.y)

/-- The function `glm::normalize` on `vec2`, in exact arithmetic: the vector divided by
its length. For the zero vector the division is `0 / 0`, which has no value (`none`). -/
noncomputable def normalize (v : Vec2) : Option Vec2 :=
  if length v = 0 then none else some ⟨v.x / length v, v.y / length v⟩

/-- The constant `carouselRadius = 3.0f`. -/
def carouselRadius : ℝ := 3

/-- The constant `carouselHeight = 4.0f`. -/
def carouselHeight : ℝ := 4

/-- The constant `0.2f` of the Y clamp: the `float` nearest to 0.2, which is
`13421773 / 2^26 = 0.200000002980232...`. -/
noncomputable def yFloor : ℝ := 13421773 / 67108864

/-- The two statements of the Y-axis camera clamp, in source order; they compare and
assign, so no rounding takes place. -/
noncomputable def clampY (y : ℝ) : ℝ :=
  let y1 := if y < yFloor then yFloor else y
  if y1 > carouselHeight then carouselHeight else y1

/-- The horizontal part of the constraint, in exact arithmetic: with
`camXZ = (cameraPos.x, cameraPos.z)` and `centerXZ = (0, 0)`, a camera closer than
`carouselRadius` to the axis is moved to `centerXZ + pushDir * carouselRadius`; any other
camera keeps its place. -/
noncomputable def pushOut (camXZ : Vec2) : Option Vec2 :=
  let centerXZ : Vec2 := ⟨0, 0⟩
  let offset : Vec2 := ⟨camXZ.x - centerXZ.x, camXZ.y - centerXZ.y⟩
  if length offset < carouselRadius then
    (normalize offset).map fun pushDir =>
      ⟨centerXZ.x + pushDir.x * carouselRadius, centerXZ.y + pushDir.y * carouselRadius⟩
  else some camXZ

/-- The `cameraPos` the constraint step leaves behind in exact arithmetic: the pair
`(x, z)`, which has no value when the push direction is `0 / 0`, and `y`, which the clamp
always sets. -/
structure ConstrainedPos where
  xz : Option Vec2
  y : ℝ

/-- The constraint step at the end of the `if (freeCamera)` block, in exact arithmetic:
the horizontal push of `(x, z)` and the clamp of `cameraPos.y`. -/
noncomputable def constrainCamera (cameraPos : CameraPos) : ConstrainedPos :=
  ⟨pushOut ⟨cameraPos.x, cameraPos.z⟩, clampY cameraPos.y⟩

/-- The horizontal (XZ) distance of a camera position from the carousel axis. -/
noncomputable def axisDistance (p : CameraPos) : ℝ :=
  length ⟨p.x, p.z⟩

/-! ## `main`: camera mode and rider selection (frame loop) -/

/-- The globals the two debounced key blocks of the frame loop read and write. -/
structure InputState where
  freeCamera : Bool
  togglePressed : Bool
  tabPressed : Bool
  selectedHorseIndex : Int
  firstMouse : Bool
  deriving DecidableEq, Repr

/-- The initial values of these globals. -/
def initialInput : InputState :=
  { freeCamera := true, togglePressed := false, tabPressed := false,
    selectedHorseIndex := 0, firstMouse := true }

/-- The block of the `C` key, on the level `glfwGetKey` reports in this tick: a press
with `togglePressed` clear flips `freeCamera`, sets `togglePressed` and resets
`firstMouse`; a release clears `togglePressed`. -/
def pollToggle (cPressed : Bool) (s : InputState) : InputState :=
  let s1 :=
    if cPressed && !s.togglePressed then
      { s with freeCamera := !s.freeCamera, togglePressed := true, firstMouse := true }
    else s
  if !cPressed then { s1 with togglePressed := false } else s1

/-- The block of the `TAB` key: a press with `tabPressed` clear and `freeCamera` false
advances `selectedHorseIndex` modulo 2 and sets `tabPressed`; a release clears
`tabPressed`. -/
def pollTab (tabKey : Bool) (s : InputState) : InputState :=
  let s1 :=
    if tabKey && !s.tabPressed && !s.freeCamera then
      { s with
        selectedHorseIndex := (s.selectedHorseIndex + 1).tmod 2
        tabPressed := true }
    else s
  if !tabKey then { s1 with tabPressed := false } else s1

/-- The key levels polled in one tick: `C` and `TAB`. -/
structure Keys where
  c : Bool
  tab : Bool
  deriving DecidableEq, Repr

/-- One poll tick of the frame loop on these globals: the `C` block, then the `TAB`
block (the arrow-key block between them touches none of them). -/
def pollTick (keys : Keys) (s : InputState) : InputState :=
  pollTab keys.tab (pollToggle keys.c s)

/-- The state after a sequence of poll ticks. -/
def runTicks (ticks : List Keys) (s : InputState) : InputState :=
  ticks.foldl (fun st keys => pollTick keys st) s

/-! ## Real vectors and the `glm` transforms the frame loop uses -/

/-- A `glm::vec3` with real components. -/
structure RVec3 where
  x : ℝ
  y : ℝ
  z : ℝ

/-- A stored vertex position read as a real vector. -/
def Vec3.toReal (v : Vec3) : RVec3 :=
  ⟨(v.x : ℝ), (v.y : ℝ), (v.z : ℝ)⟩

/-- A `glm::mat4`, indexed by row and column. -/
abbrev Mat4 := Matrix (Fin 4) (Fin 4) ℝ

/-- The constructor `glm::vec4(v, w)`. -/
def vec4 (v : RVec3) (w : ℝ) : Fin 4 → ℝ :=
  ![v.x, v.y, v.z, w]

/-- The conversion `glm::vec3(v4)`, which drops the fourth component. -/
def vec3 (v : Fin 4 → ℝ) : RVec3 :=
  ⟨v 0, v 1, v 2⟩

/-- The function `glm::radians`. -/
noncomputable def radians (degrees : ℝ) : ℝ :=
  degrees * (Real.pi / 180)

/-- The function `glm::length` on `vec3`. -/
noncomputable def length3 (v : RVec3) : ℝ :=
  Real.sqrt (v.x * v.x + v.y * v.y + v.z * v.z)

/-- The function `glm::normalize` on `vec3`, for the non-zero vectors this program passes
(unit axes and unit directions): the vector divided by its length. -/
noncomputable def normalize3 (v : RVec3) : RVec3 :=
  ⟨v.x / length3 v, v.y / length3 v, v.z / length3 v⟩

/-- The function `glm::scale(m, v)`: `m` times the diagonal scaling by `v`. -/
def scale (m : Mat4) (v : RVec3) : Mat4 :=
  m * !![v.x, 0, 0, 0; 0, v.y, 0, 0; 0, 0, v.z, 0; 0, 0, 0, 1]

/-- The function `glm::rotate(m, angle, v)`: `m` times the rotation by `angle` (radians)
about the normalized axis `v`, with `temp = (1 - c) * axis` as in the library. -/
noncomputable def rotate (m : Mat4) (angle : ℝ) (v : RVec3) : Mat4 :=
  let c := Real.cos angle
  let s := Real.sin angle
  let axis := normalize3 v
  let temp : RVec3 := ⟨(1 - c) * axis.x, (1 - c) * axis.y, (1 - c) * axis.z⟩
  m * !![c + temp.x * axis.x, temp.y * axis.x - s * axis.z, temp.z * axis.x + s * axis.y, 0;
         temp.x * axis.y + s * axis.z, c + temp.y * axis.y, temp.z * axis.y - s * axis.x, 0;
         temp.x * axis.z - s * axis.y, temp.y * axis.z + s * axis.x, c + temp.z * axis.z, 0;
         0, 0, 0, 1]

/-! ## `main`: the point-light uploads of one frame -/

/-- The `worldPos` of both upload loops:
`vec3(rotate(mat4(1), radians(rotation), vec3(0, 1, 0)) * vec4(bulbPositions[i], 1))`. -/
noncomputable def lightWorldPos (rotation : ℝ) (bulb : RVec3) : RVec3 :=
  vec3 ((rotate 1 (radians rotation) ⟨0, 1, 0⟩).mulVec (vec4 bulb 1))

/-- The positions one upload loop `for (i = 0; i < numBulbs; ++i)` sends as
`pointLights[i].position`, in index order, for the value `rotation` has when it runs. -/
noncomputable def uploadLights (bulbPositions : List Vec3) (rotation : ℚ) : List RVec3 :=
  bulbPositions.map fun bulb => lightWorldPos (rotation : ℝ) bulb.toReal

/-- The light positions the two shaders receive in one frame. -/
structure FrameLights where
  modelShader : List RVec3
  groundShader : List RVec3

/-- The light uploads of one frame in source order: the loop for `shaderProgram`, then
the update of `rotation`, then the loop for `groundShader`. -/
noncomputable def frameLights (bulbPositions : List Vec3) (angularVelocity rotation : ℚ) :
    FrameLights :=
  let modelShader := uploadLights bulbPositions rotation
  let rotation' := updateRotation angularVelocity rotation
  { modelShader := modelShader, groundShader := uploadLights bulbPositions rotation' }

/-! ## `ModelLoader::Draw` and the mounted camera of `main` -/

/-- The local `verticalOffset` of `ModelLoader::Draw` for the two bouncing meshes:
`sin(horseTime) * 2.8` for mesh 0 and `sin(horseTime + pi) * 2.8` for mesh 1. -/
noncomputable def verticalOffset (i : Nat) (horseTime : ℝ) : ℝ :=
  if i = 0 then Real.sin horseTime * (28 / 10)
  else Real.sin (horseTime + Real.pi) * (28 / 10)

/-- The matrix `modelMat` of the frame loop: scale by `0.01`, rotate by `-90` degrees
about X, rotate by `rotation` degrees about Z. -/
noncomputable def modelMat (rotation : ℝ) : Mat4 :=
  rotate (rotate (scale 1 ⟨1 / 100, 1 / 100, 1 / 100⟩) (radians (-90)) ⟨1, 0, 0⟩)
    (radians rotation) ⟨0, 0, 1⟩

/-- The matrix `staticModelMat` of the frame loop: `modelMat` without the carousel
rotation. -/
noncomputable def staticModelMat : Mat4 :=
  rotate (scale 1 ⟨1 / 100, 1 / 100, 1 / 100⟩) (radians (-90)) ⟨1, 0, 0⟩

/-- The value `horseYOffset` of the mounted branch. -/
noncomputable def horseYOffset (selectedHorseIndex : Int) (horseAnimationTime : ℝ) : ℝ :=
  (if selectedHorseIndex = 0 then Real.sin horseAnimationTime
    else Real.sin (horseAnimationTime + Real.pi)) * (28 / 10)

/-- The vector `direction` of `mouse_callback`, from yaw and pitch in degrees. -/
noncomputable def direction (yaw pitch : ℝ) : RVec3 :=
  ⟨Real.cos (radians yaw) * Real.cos (radians pitch), Real.sin (radians pitch),
    Real.sin (radians yaw) * Real.cos (radians pitch)⟩

/-- The vector `lookDir` of the mounted branch, with `correctedYaw = yaw - rotation`. -/
noncomputable def lookDir (yaw pitch rotation : ℝ) : RVec3 :=
  let correctedYaw := yaw - rotation
  ⟨Real.cos (radians correctedYaw) * Real.cos (radians pitch), Real.sin (radians pitch),
    Real.sin (radians correctedYaw) * Real.cos (radians pitch)⟩

/-- The globals `mouse_callback` reads and writes. -/
structure MouseState where
  yaw : ℝ
  pitch : ℝ
  lastX : ℝ
  lastY : ℝ
  firstMouse : Bool
  cameraFront : RVec3

/-- The initial values of these globals. -/
noncomputable def initialMouse : MouseState :=
  { yaw := -90, pitch := 0, lastX := 400, lastY := 300, firstMouse := true,
    cameraFront := ⟨0, 0, -1⟩ }

/-- The function `mouse_callback` on one mouse sample `(xpos, ypos)`. -/
noncomputable def mouse_callback (s : MouseState) (xpos ypos : ℝ) : MouseState :=
  let lastX := if s.firstMouse then xpos else s.lastX
  let lastY := if s.firstMouse then ypos else s.lastY
  let sensitivity : ℝ := 1 / 10
  let xoffset := (xpos - lastX) * sensitivity
  let yoffset := (lastY - ypos) * sensitivity
  let yaw := s.yaw + xoffset
  let pitch := s.pitch + yoffset
  let pitch := if pitch > 89 then 89 else pitch
  let pitch := if pitch < -89 then -89 else pitch
  { yaw := yaw, pitch := pitch, lastX := xpos, lastY := ypos, firstMouse := false,
    cameraFront := normalize3 (direction yaw pitch) }

/-- The mouse globals after a sequence of samples delivered to `mouse_callback`. -/
noncomputable def runMouse (samples : List (ℝ × ℝ)) (s : MouseState) : MouseState :=
  samples.foldl (fun st p => mouse_callback st p.1 p.2) s

/-! ## `main`: the draw calls of one frame -/

/-- The shader programs of `main`. -/
inductive Program where
  | shaderProgram
  | groundShader
  | glowShader
  | skbShader
  deriving DecidableEq, Repr

/-- The vertex arrays that are bound for drawing: the three of `main` and the `VAO` of
each mesh of the model. -/
inductive VertexArray where
  | groundVAO
  | glowVAO
  | skyboxVAO
  | meshVAO (i : Nat)
  deriving DecidableEq, Repr

/-- The calls of one frame that select what is drawn and draw it. -/
inductive GLCall where
  | clear
  | useProgram (program : Program)
  | bindVertexArray (vao : Option VertexArray)
  | depthFunc (lessOrEqual : Bool)
  | drawElements
  | drawArrays
  | swapBuffers
  deriving DecidableEq, Repr

/-- The calls of `Mesh::Draw` for mesh `i`. -/
def meshDrawCalls (i : Nat) : List GLCall :=
  [GLCall.bindVertexArray (some (VertexArray.meshVAO i)), GLCall.drawElements,
    GLCall.bindVertexArray none]

/-- The calls of `ModelLoader::Draw`: `meshes[i].Draw()` for each mesh in index order. -/
def modelDrawCalls (numMeshes : Nat) : List GLCall :=
  (List.range numMeshes).flatMap meshDrawCalls

/-- The calls of one iteration of the frame loop from `glClear` to `glfwSwapBuffers`,
in source order, for a model of `numMeshes` meshes. -/
def frameCalls (numMeshes : Nat) : List GLCall :=
  [GLCall.clear, GLCall.useProgram Program.shaderProgram,
    GLCall.useProgram Program.groundShader,
    GLCall.bindVertexArray (some VertexArray.groundVAO), GLCall.drawElements,
    GLCall.bindVertexArray none,
    GLCall.useProgram Program.glowShader,
    GLCall.bindVertexArray (some VertexArray.glowVAO), GLCall.drawElements,
    GLCall.bindVertexArray none,
    GLCall.depthFunc true, GLCall.useProgram Program.skbShader,
    GLCall.bindVertexArray (some VertexArray.skyboxVAO), GLCall.drawArrays,
    GLCall.bindVertexArray none, GLCall.depthFunc false,
    GLCall.useProgram Program.shaderProgram]
  ++ modelDrawCalls numMeshes ++ [GLCall.swapBuffers]

/-- What a draw call submits: the program in use and the vertex array bound. -/
structure Submission where
  program : Option Program
  vao : Option VertexArray
  deriving DecidableEq, Repr

/-- The draw submissions of a call sequence, in order, from the program in use and the
vertex array bound when it starts. -/
def submissions : List GLCall → Option Program → Option VertexArray → List Submission
  | [], _, _ => []
  | GLCall.useProgram p :: rest, _, vao => submissions rest (some p) vao
  | GLCall.bindVertexArray v :: rest, program, _ => submissions rest program v
  | GLCall.drawElements :: rest, program, vao => ⟨program, vao⟩ :: submissions rest program vao
  | GLCall.drawArrays :: rest, program, vao => ⟨program, vao⟩ :: submissions rest program vao
  | _ :: rest, program, vao => submissions rest program vao

/-- The four visual elements of the scene. -/
inductive Element where
  | carouselModel
  | groundQuad
  | glowQuad
  | skyboxCube
  deriving DecidableEq, Repr

/-- The element a bound vertex array holds. -/
def elementOf : VertexArray → Element
  | VertexArray.groundVAO => Element.groundQuad
  | VertexArray.glowVAO => Element.glowQuad
  | VertexArray.skyboxVAO => Element.skyboxCube
  | VertexArray.meshVAO _ => Element.carouselModel

/-- The elements drawn in one frame, one entry per draw submission, in the order of the
submissions. -/
def drawnElements (numMeshes : Nat) : List Element :=
  (submissions (frameCalls numMeshes) none none).filterMap fun s => s.vao.map elementOf

/-! ## A model with two light-bearing meshes -/

/-- The `n` vertices `(0,0,0), (1,0,0), ..., (n-1,0,0)`, one unit apart on the X axis. -/
def lineVertices (n : Nat) : List Vec3 :=
  (List.range n).map fun (i : Nat) => ⟨(i : ℚ), 0, 0⟩

/-- A model of two meshes: `bulb`, with 64 vertices one unit apart, and `light`, with the
single vertex `(0,0,0)`. -/
def twoLightMeshes : List MeshData :=
  [⟨"bulb".toList, lineVertices 64⟩, ⟨"light".toList, [⟨0, 0, 0⟩]⟩]

/-! ## IEEE binary32 arithmetic, for the code that is also modelled as `float` evaluates it -/

/-- Rounding of a real to the nearest integer, ties to the even one. -/
noncomputable def roundTiesEven (y : ℝ) : ℤ :=
  if y - ⌊y⌋ < 1 / 2 then ⌊y⌋
  else if 1 / 2 < y - ⌊y⌋ then ⌊y⌋ + 1
  else if Even ⌊y⌋ then ⌊y⌋ else ⌊y⌋ + 1

/-- The spacing of the binary32 numbers around `x`: `2 ^ (e - 23)` for the binary
exponent `e` of `x`, which is at least `-126` (below, the numbers are subnormal). -/
noncomputable def ulpF32 (x : ℝ) : ℝ :=
  (2 : ℝ) ^ (max (Int.log 2 |x|) (-126) - 23)

/-- A binary32 value: a real on the binary32 grid, or `none` for an infinity or a NaN. -/
abbrev F32 := Option ℝ

/-- The binary32 result of an operation whose exact value is `x`: round to nearest, ties
to even; a result of magnitude `2 ^ 128` or more overflows to an infinity. -/
noncomputable def roundF32 (x : ℝ) : F32 :=
  if |(roundTiesEven (x / ulpF32 x) : ℝ) * ulpF32 x| < (2 : ℝ) ^ (128 : ℤ) then
    some ((roundTiesEven (x / ulpF32 x) : ℝ) * ulpF32 x)
  else none

/-- The `float` addition; an infinity or NaN operand gives an infinity or a NaN. -/
noncomputable def f32add (a b : F32) : F32 :=
  a.bind fun x => b.bind fun y => roundF32 (x + y)

/-- The `float` subtraction. -/
noncomputable def f32sub (a b : F32) : F32 :=
  a.bind fun x => b.bind fun y => roundF32 (x - y)

/-- The `float` multiplication. -/
noncomputable def f32mul (a b : F32) : F32 :=
  a.bind fun x => b.bind fun y => roundF32 (x * y)

/-- The `float` division of a finite number by a finite one; division by zero gives an
infinity or a NaN. -/
noncomputable def f32div (a b : F32) : F32 :=
  a.bind fun x => b.bind fun y => if y = 0 then none else roundF32 (x / y)

/-- The `float` square root; a negative argument gives a NaN. -/
noncomputable def f32sqrt (a : F32) : F32 :=
  a.bind fun x => if x < 0 then none else roundF32 (Real.sqrt x)

/-- The comparison `a < b` of a `float` that is finite, `+inf` or NaN with a finite one:
false unless both are finite. -/
noncomputable def f32lt (a b : F32) : Bool :=
  match a, b with
  | some x, some y => decide (x < y)
  | _, _ => false

/-- The `cameraPos` the constraint step leaves behind, as `float`s: `x` and `z` can come
out as an infinity or a NaN, `y` is always finite. -/
structure CameraPosF32 where
  x : F32
  y : ℝ
  z : F32

/-- The constraint step at the end of the `if (freeCamera)` block as `float` arithmetic
evaluates it, on a camera position with finite `float` coordinates:
`dist = length(camXZ - centerXZ)` with `length(v) = sqrt(dot(v, v))` and
`dot(v, v) = v.x * v.x + v.y * v.y`; when `dist < carouselRadius`,
`pushDir = normalize(camXZ - centerXZ)` with `normalize(v) = v * (1 / sqrt(dot(v, v)))`
and the new `x`, `z` are `centerXZ + pushDir * carouselRadius`; then the Y clamp. Every
operation rounds to `float`. -/
noncomputable def constrainCameraF32 (cameraPos : CameraPos) : CameraPosF32 :=
  let centerX : F32 := some 0
  let centerZ : F32 := some 0
  let offX := f32sub (some cameraPos.x) centerX
  let offZ := f32sub (some cameraPos.z) centerZ
  let dot := f32add (f32mul offX offX) (f32mul offZ offZ)
  let dist := f32sqrt dot
  if f32lt dist (some 3) then
    let inv := f32div (some 1) (f32sqrt dot)
    let pushX := f32mul offX inv
    let pushZ := f32mul offZ inv
    ⟨f32add centerX (f32mul pushX (some 3)), clampY cameraPos.y,
      f32add centerZ (f32mul pushZ (some 3))⟩
  else ⟨some cameraPos.x, clampY cameraPos.y, some cameraPos.z⟩

/-! ## `ModelLoader::loadModel`: the clustering loop as `float` evaluates the distance -/

/-- The test `glm::distance(center, pos) < clusterThreshold` of the inner loop as `float`
evaluates it: `distance(p0, p1) = length(p1 - p0)`, `length(v) = sqrt(dot(v, v))` and
`dot(v, v) = v.x * v.x + v.y * v.y + v.z * v.z`, every operation rounded to `float`. -/
noncomputable def nearF32 (center pos : Vec3) : Bool :=
  let dx := f32sub (some (pos.x : ℝ)) (some (center.x : ℝ))
  let dy := f32sub (some (pos.y : ℝ)) (some (center.y : ℝ))
  let dz := f32sub (some (pos.z : ℝ)) (some (center.z : ℝ))
  let dot := f32add (f32add (f32mul dx dx) (f32mul dy dy)) (f32mul dz dz)
  f32lt (f32sqrt dot) (some (clusterThreshold : ℝ))

/-- The inner loop `for (auto& center : clusterCenters)` with the test as `float`
evaluates it. -/
noncomputable def foundClusterF32 : List Vec3 → Vec3 → Bool
  | [], _ => false
  | center :: rest, pos => if nearF32 center pos then true else foundClusterF32 rest pos

/-- The outer loop over the remaining vertices with the test as `float` evaluates it. -/
noncomputable def clusterLoopF32 : List Vec3 → List Vec3 → List Vec3
  | [], clusterCenters => clusterCenters
  | pos :: rest, clusterCenters =>
    if foundClusterF32 clusterCenters pos then clusterLoopF32 rest clusterCenters
    else
      if (clusterCenters ++ [pos]).length ≥ 64 then clusterCenters ++ [pos]
      else clusterLoopF32 rest (clusterCenters ++ [pos])

/-- The cluster centers of one light-bearing mesh as the program computes them, with the
distance test in `float` arithmetic. -/
noncomputable def clusterCentersF32 (vertices : List Vec3) : List Vec3 :=
  clusterLoopF32 vertices []

/-! ## Lemmas on the clustering loop -/

theorem dist2_nonneg (a b : Vec3) : 0 ≤ dist2 a b := by
  unfold dist2
  nlinarith [mul_self_nonneg (a.x - b.x), mul_self_nonneg (a.y - b.y),
    mul_self_nonneg (a.z - b.z)]

theorem dist2_comm (a b : Vec3) : dist2 a b = dist2 b a := by
  unfold dist2
  ring

theorem dist2_self (a : Vec3) : dist2 a a = 0 := by
  unfold dist2
  ring

/-- The squared test of `near` is the source's test on the Euclidean distance. -/
theorem near_iff_sqrt (a b : Vec3) :
    near a b = true ↔ Real.sqrt ((dist2 a b : ℚ) : ℝ) < (5033165 / 33554432 : ℝ) := by
  have h0 : (0 : ℝ) ≤ ((dist2 a b : ℚ) : ℝ) := by exact_mod_cast dist2_nonneg a b
  have hq : dist2 a b < clusterThreshold * clusterThreshold ↔
      ((dist2 a b : ℚ) : ℝ) < (5033165 / 33554432 : ℝ) ^ 2 := by
    rw [← Rat.cast_lt (K := ℝ)]
    unfold clusterThreshold
    norm_num
  rw [near, decide_eq_true_iff, hq, Real.sqrt_lt' (by norm_num)]

theorem foundCluster_eq_true_iff (cs : List Vec3) (pos : Vec3) :
    foundCluster cs pos = true ↔ ∃ c ∈ cs, near c pos = true := by
  induction cs with
  | nil => simp [foundCluster]
  | cons c rest ih =>
    by_cases h : near c pos = true
    · simp [foundCluster, h]
    · simp [foundCluster, h, ih]

theorem foundCluster_eq_false_iff (cs : List Vec3) (pos : Vec3) :
    foundCluster cs pos = false ↔ ∀ c ∈ cs, near c pos = false := by
  rw [← Bool.not_eq_true, foundCluster_eq_true_iff]
  simp

/-- Started below the cap, the loop never grows `clusterCenters` beyond 64 entries. -/
theorem clusterLoop_length_le (vs cs : List Vec3) (hcs : cs.length < 64) :
    (clusterLoop vs cs).length ≤ 64 := by
  induction vs generalizing cs with
  | nil => simp only [clusterLoop]; omega
  | cons pos rest ih =>
    unfold clusterLoop
    split
    · exact ih cs hcs
    · split
      · simp only [List.length_append, List.length_singleton]
        omega
      · rename_i h
        apply ih
        simp only [List.length_append, List.length_singleton] at h ⊢
        omega

/-- Mutual separation of the centers is preserved by the loop. -/
theorem clusterLoop_pairwise (vs cs : List Vec3)
    (h : cs.Pairwise (fun a b => near a b = false)) :
    (clusterLoop vs cs).Pairwise (fun a b => near a b = false) := by
  induction vs generalizing cs with
  | nil => simpa [clusterLoop] using h
  | cons pos rest ih =>
    have hstep : (cs ++ [pos]).Pairwise (fun a b => near a b = false) ↔
        foundCluster cs pos = false := by
      rw [foundCluster_eq_false_iff, List.pairwise_append]
      simp [h]
    unfold clusterLoop
    split
    · exact ih cs h
    · rename_i hf
      have hp := hstep.2 (by simpa using hf)
      split
      · exact hp
      · exact ih _ hp

/-- The first vertex scanned always opens a cluster; the loop then continues from it. -/
theorem clusterCenters_cons (v : Vec3) (vs : List Vec3) :
    clusterCenters (v :: vs) = clusterLoop vs [v] := by
  simp [clusterCenters, clusterLoop, foundCluster]

/-- Vertices that are all near the single current center leave it alone. -/
theorem clusterLoop_all_near (v : Vec3) (vs : List Vec3)
    (h : ∀ p ∈ vs, near v p = true) : clusterLoop vs [v] = [v] := by
  induction vs with
  | nil => rfl
  | cons p rest ih =>
    have hp : near v p = true := h p (List.mem_cons_self _ _)
    have hrest : ∀ q ∈ rest, near v q = true := fun q hq => h q (List.mem_cons_of_mem _ hq)
    simp [clusterLoop, foundCluster, hp, ih hrest]

/-- The loop only appends: the centers it starts with stay a prefix of its result. -/
theorem clusterLoop_extends (vs cs : List Vec3) : cs <+: clusterLoop vs cs := by
  induction vs generalizing cs with
  | nil => exact List.prefix_refl _
  | cons pos rest ih =>
    unfold clusterLoop
    split
    · exact ih cs
    · split
      · exact List.prefix_append _ _
      · exact (List.prefix_append cs [pos]).trans (ih _)

/-! ## Lemmas on the mesh name test -/

theorem startsWith_iff (needle s : List Char) :
    startsWith needle s = true ↔ needle <+: s := by
  induction needle generalizing s with
  | nil => simp [startsWith]
  | cons c needle ih =>
    cases s with
    | nil => simp [startsWith]
    | cons d s =>
      by_cases hcd : c = d
      · subst hcd
        simp [startsWith, ih, List.cons_prefix_cons]
      · simp [startsWith, hcd, List.cons_prefix_cons]

theorem find_isSome_iff (s needle : List Char) :
    (find s needle).isSome = true ↔ needle <:+: s := by
  induction s with
  | nil =>
    by_cases h : startsWith needle [] = true
    · simp [find, h, List.IsPrefix.isInfix ((startsWith_iff _ _).1 h)]
    · have h2 : ¬ needle <+: [] := fun hp => h ((startsWith_iff _ _).2 hp)
      simp only [List.prefix_nil] at h2
      simp [find, h, h2]
  | cons c rest ih =>
    by_cases h : startsWith needle (c :: rest) = true
    · simp [find, h, List.IsPrefix.isInfix ((startsWith_iff _ _).1 h)]
    · have h2 : ¬ needle <+: c :: rest := fun hp => h ((startsWith_iff _ _).2 hp)
      simp [find, h, ih, List.infix_cons_iff, h2]

theorem containsIgnoreCase_iff (name needle : List Char) :
    ContainsIgnoreCase name needle ↔ needle <:+: toLowerName name := by
  unfold ContainsIgnoreCase toLowerName
  constructor
  · rintro ⟨pre, mid, post, rfl, rfl⟩
    exact ⟨pre.map Char.toLower, post.map Char.toLower, by simp⟩
  · rintro ⟨a, b, hab⟩
    obtain ⟨l₁, post, hname, hl₁, hpost⟩ := List.map_eq_append_iff.1 hab.symm
    obtain ⟨pre, mid, hl, hpre, hmid⟩ := List.map_eq_append_iff.1 hl₁
    exact ⟨pre, mid, post, by rw [hname, hl], hmid⟩

theorem isLightMesh_iff (name : List Char) :
    isLightMesh (toLowerName name) = true ↔ LightBearing name := by
  simp only [isLightMesh, LightBearing, Bool.or_eq_true, find_isSome_iff,
    containsIgnoreCase_iff, or_assoc]

/-! ## Light extraction: the claims -/

/-- C1: for every vertex list, the cluster-center list built by the clustering loop has at
most 64 entries, and so has the contribution of any mesh with these vertices. -/
theorem cluster_count_le_64 (vertices : List Vec3) :
    (clusterCenters vertices).length ≤ 64 ∧
      ∀ name : List Char, (meshBulbs ⟨name, vertices⟩).length ≤ 64 := by
  have h : (clusterCenters vertices).length ≤ 64 :=
    clusterLoop_length_le vertices [] (by simp)
  refine ⟨h, fun name => ?_⟩
  unfold meshBulbs
  split
  · exact h
  · simp

/-- C2: any two entries at different positions of the cluster-center list are at
Euclidean distance at least 0.15 from each other. -/
theorem cluster_centers_separated (vertices : List Vec3) (i j : Nat) (a b : Vec3)
    (ha : (clusterCenters vertices)[i]? = some a)
    (hb : (clusterCenters vertices)[j]? = some b) (hij : i ≠ j) :
    (15 / 100 : ℝ) ≤ Real.sqrt ((dist2 a b : ℚ) : ℝ) := by
  have hpw : (clusterCenters vertices).Pairwise (fun a b => near a b = false) :=
    clusterLoop_pairwise vertices [] List.Pairwise.nil
  rw [List.pairwise_iff_getElem] at hpw
  obtain ⟨hi, rfl⟩ := List.getElem?_eq_some_iff.1 ha
  obtain ⟨hj, rfl⟩ := List.getElem?_eq_some_iff.1 hb
  have hfar : ∀ p q : Vec3, near p q = false →
      (15 / 100 : ℝ) ≤ Real.sqrt ((dist2 p q : ℚ) : ℝ) := by
    intro p q hpq
    have h := (near_iff_sqrt p q).not.1 (by simp [hpq])
    linarith [not_lt.1 h]
  rcases Nat.lt_or_gt_of_ne hij with hlt | hgt
  · exact hfar _ _ (hpw i j hi hj hlt)
  · rw [dist2_comm]
    exact hfar _ _ (hpw j i hj hi hgt)

/-- Witness of C2 on the two vertices `(0,0,0)` and `(1,0,0)`. -/
theorem cluster_centers_separated_witness :
    (15 / 100 : ℝ) ≤ Real.sqrt ((dist2 ⟨0, 0, 0⟩ ⟨1, 0, 0⟩ : ℚ) : ℝ) :=
  cluster_centers_separated [⟨0, 0, 0⟩, ⟨1, 0, 0⟩] 0 1 ⟨0, 0, 0⟩ ⟨1, 0, 0⟩
    (by norm_num [clusterCenters, clusterLoop, foundCluster, near, dist2, clusterThreshold])
    (by norm_num [clusterCenters, clusterLoop, foundCluster, near, dist2, clusterThreshold])
    (by decide)

/-- C3: a list of `N ≥ 1` vertices that are pairwise within distance 0.10 yields exactly
one cluster center, the first vertex of the list. -/
theorem cluster_dedup (N : Nat) (vertices : List Vec3) (hN : 1 ≤ N)
    (hlen : vertices.length = N)
    (hclose : ∀ a ∈ vertices, ∀ b ∈ vertices,
      Real.sqrt ((dist2 a b : ℚ) : ℝ) ≤ (10 / 100 : ℝ)) :
    ∃ first, vertices.head? = some first ∧ clusterCenters vertices = [first] := by
  cases vertices with
  | nil => simp at hlen; omega
  | cons v vs =>
    refine ⟨v, rfl, ?_⟩
    rw [clusterCenters_cons]
    apply clusterLoop_all_near
    intro p hp
    rw [near_iff_sqrt]
    have := hclose v (List.mem_cons_self _ _) p (List.mem_cons_of_mem _ hp)
    linarith

/-- Witness of C3 on the two vertices `(0,0,0)` and `(0.05,0,0)`. -/
theorem cluster_dedup_witness :
    ∃ first, ([⟨0, 0, 0⟩, ⟨1 / 20, 0, 0⟩] : List Vec3).head? = some first ∧
      clusterCenters [⟨0, 0, 0⟩, ⟨1 / 20, 0, 0⟩] = [first] :=
  cluster_dedup 2 [⟨0, 0, 0⟩, ⟨1 / 20, 0, 0⟩] (by decide) rfl (by
    intro a ha b hb
    rw [Real.sqrt_le_left (by norm_num)]
    simp only [List.mem_cons, List.mem_singleton, List.not_mem_nil, or_false] at ha hb
    rcases ha with rfl | rfl <;> rcases hb with rfl | rfl <;> norm_num [dist2])

/-- C4: two vertices at Euclidean distance exactly 0.20 yield two distinct cluster
centers, the two input points in input order. -/
theorem cluster_separation (p q : Vec3)
    (h : Real.sqrt ((dist2 p q : ℚ) : ℝ) = (20 / 100 : ℝ)) :
    clusterCenters [p, q] = [p, q] ∧ p ≠ q := by
  have hfar : near p q = false := by
    rw [← Bool.not_eq_true, near_iff_sqrt, h]
    norm_num
  constructor
  · simp [clusterCenters, clusterLoop, foundCluster, hfar]
  · rintro rfl
    rw [dist2_self] at h
    norm_num at h

/-- Witness of C4 on the two vertices `(0,0,0)` and `(0.2,0,0)`. -/
theorem cluster_separation_witness :
    clusterCenters [⟨0, 0, 0⟩, ⟨1 / 5, 0, 0⟩] = [⟨0, 0, 0⟩, ⟨1 / 5, 0, 0⟩] ∧
      (⟨0, 0, 0⟩ : Vec3) ≠ ⟨1 / 5, 0, 0⟩ :=
  cluster_separation ⟨0, 0, 0⟩ ⟨1 / 5, 0, 0⟩ (by
    have h2 : ((dist2 ⟨0, 0, 0⟩ ⟨1 / 5, 0, 0⟩ : ℚ) : ℝ) = (20 / 100 : ℝ) ^ 2 := by
      norm_num [dist2]
    rw [h2, Real.sqrt_sq (by norm_num)])

/-- C5: a mesh with a non-empty vertex list contributes at least one anchor exactly when
its name contains `bulb`, `light` or `lit` ignoring letter case; a mesh whose name
contains none of them contributes no anchor. -/
theorem mesh_contributes_iff_light_name (mesh : MeshData) (hne : mesh.vertices ≠ []) :
    (1 ≤ (meshBulbs mesh).length ↔ LightBearing mesh.name) ∧
      (¬ LightBearing mesh.name → meshBulbs mesh = []) := by
  obtain ⟨v, vs, hv⟩ := List.exists_cons_of_ne_nil hne
  have hpos : 1 ≤ (clusterCenters mesh.vertices).length := by
    rw [hv, clusterCenters_cons]
    simpa using (clusterLoop_extends vs [v]).length_le
  unfold meshBulbs
  by_cases hl : isLightMesh (toLowerName mesh.name) = true
  · have hL := (isLightMesh_iff _).1 hl
    simp [hl, hL, hpos]
  · have hL : ¬ LightBearing mesh.name := fun h => hl ((isLightMesh_iff _).2 h)
    simp [hl, hL]

/-- Witness of C5 on a mesh named `Bulb_01` with the single vertex `(0,0,0)`. -/
theorem mesh_contributes_iff_light_name_witness :
    (1 ≤ (meshBulbs ⟨"Bulb_01".toList, [⟨0, 0, 0⟩]⟩).length ↔
        LightBearing "Bulb_01".toList) ∧
      (¬ LightBearing "Bulb_01".toList → meshBulbs ⟨"Bulb_01".toList, [⟨0, 0, 0⟩]⟩ = []) :=
  mesh_contributes_iff_light_name ⟨"Bulb_01".toList, [⟨0, 0, 0⟩]⟩ (by simp)

/-! ## Carousel physics: lemmas and claims -/

/-- One frame of `updateVelocity` keeps the velocity inside `[0, 1.5]`. -/
theorem updateVelocity_mem (r l : Bool) (v : ℚ) (h0 : 0 ≤ v) (h1 : v ≤ 15 / 10) :
    0 ≤ updateVelocity r l v ∧ updateVelocity r l v ≤ 15 / 10 := by
  unfold updateVelocity angularAcceleration
  split_ifs <;> constructor <;> linarith

theorem runVelocity_mem (frames : List (Bool × Bool)) (v : ℚ) (h0 : 0 ≤ v)
    (h1 : v ≤ 15 / 10) :
    0 ≤ runVelocity frames v ∧ runVelocity frames v ≤ 15 / 10 := by
  induction frames generalizing v with
  | nil => exact ⟨h0, h1⟩
  | cons keys rest ih =>
    obtain ⟨h0', h1'⟩ := updateVelocity_mem keys.1 keys.2 v h0 h1
    exact ih _ h0' h1'

/-- The number of quarter-degree triples stored after `n` full-speed frames. -/
theorem spinAtFullSpeed_eq (n : Nat) :
    spinAtFullSpeed n = 3 / 4 * ((if n = 0 then 0 else (n - 1) % 480 + 1 : ℕ) : ℚ) := by
  induction n with
  | zero => simp [spinAtFullSpeed]
  | succ n ih =>
    rw [spinAtFullSpeed, ih]
    generalize hk : (if n = 0 then 0 else (n - 1) % 480 + 1 : ℕ) = k
    have hk' : (if n + 1 = 0 then 0 else (n + 1 - 1) % 480 + 1 : ℕ)
        = if k = 480 then 1 else k + 1 := by
      subst hk
      by_cases hn : n = 0
      · subst hn
        rfl
      · have h1 : (n - 1) % 480 < 480 := Nat.mod_lt _ (by norm_num)
        simp only [hn, if_false, Nat.add_sub_cancel, Nat.succ_ne_zero]
        split_ifs <;> omega
    have hle : k ≤ 480 := by
      split_ifs at hk <;> omega
    rw [hk']
    unfold updateRotation
    by_cases h480 : k = 480
    · subst h480
      norm_num
    · have hlt : (k : ℚ) ≤ 479 := by
        have : k ≤ 479 := by omega
        exact_mod_cast this
      rw [if_neg h480, if_neg (by linarith)]
      push_cast
      ring

/-- The remainder modulo 360 of the raw accumulation `0.75 * n`. -/
theorem ratMod_raw (n : Nat) :
    ratMod (3 / 4 * (n : ℚ)) 360 = 3 / 4 * ((n % 480 : ℕ) : ℚ) := by
  have hfloor : ⌊3 / 4 * (n : ℚ) / 360⌋ = ((n / 480 : ℕ) : ℤ) := by
    have : 3 / 4 * (n : ℚ) / 360 = (n : ℚ) / ((480 : ℕ) : ℚ) := by
      push_cast
      ring
    rw [this, Rat.floor_natCast_div_natCast]
    norm_cast
  have hdm : (n : ℚ) = 480 * ((n / 480 : ℕ) : ℚ) + ((n % 480 : ℕ) : ℚ) := by
    exact_mod_cast (Nat.div_add_mod n 480).symm
  unfold ratMod
  rw [hfloor, Int.cast_natCast]
  linarith

/-- C6, as the code behaves: once the raw accumulation `0.75 * n` exceeds 360, the stored
rotation lies in `(0, 360]`; it equals `(0.75 * n) mod 360` when that remainder is not
zero, and it is 360 when `0.75 * n` is a multiple of 360. -/
theorem rotation_wrap (n : Nat) (h : 360 < 3 / 4 * (n : ℚ)) :
    0 < spinAtFullSpeed n ∧ spinAtFullSpeed n ≤ 360 ∧
      (ratMod (3 / 4 * (n : ℚ)) 360 ≠ 0 →
        spinAtFullSpeed n = ratMod (3 / 4 * (n : ℚ)) 360) ∧
      (ratMod (3 / 4 * (n : ℚ)) 360 = 0 → spinAtFullSpeed n = 360) := by
  have hn : n ≠ 0 := by
    rintro rfl
    norm_num at h
  rw [ratMod_raw, spinAtFullSpeed_eq, if_neg hn]
  have hm : n % 480 < 480 := Nat.mod_lt _ (by norm_num)
  by_cases h0 : n % 480 = 0
  · have hk : (n - 1) % 480 + 1 = 480 := by omega
    rw [hk, h0]
    norm_num
  · have hk : (n - 1) % 480 + 1 = n % 480 := by omega
    have hpos : (0 : ℚ) < ((n % 480 : ℕ) : ℚ) := by
      exact_mod_cast Nat.pos_of_ne_zero h0
    have hle : ((n % 480 : ℕ) : ℚ) ≤ 480 := by
      exact_mod_cast hm.le
    rw [hk]
    refine ⟨by linarith, by linarith, fun _ => rfl, fun hz => ?_⟩
    linarith

/-- Witness of the amended C6 after 481 frames, where the stored rotation is `0.75`. -/
theorem rotation_wrap_witness :
    0 < spinAtFullSpeed 481 ∧ spinAtFullSpeed 481 ≤ 360 ∧
      (ratMod (3 / 4 * ((481 : ℕ) : ℚ)) 360 ≠ 0 →
        spinAtFullSpeed 481 = ratMod (3 / 4 * ((481 : ℕ) : ℚ)) 360) ∧
      (ratMod (3 / 4 * ((481 : ℕ) : ℚ)) 360 = 0 → spinAtFullSpeed 481 = 360) :=
  rotation_wrap 481 (by norm_num)

/-- C6 fails after 960 frames: the raw accumulation is 720, the stored rotation is
exactly 360, which is neither below 360 nor equal to `720 mod 360 = 0`. -/
theorem rotation_wrap_counterexample :
    360 < 3 / 4 * ((960 : ℕ) : ℚ) ∧ spinAtFullSpeed 960 = 360 ∧
      ratMod (3 / 4 * ((960 : ℕ) : ℚ)) 360 = 0 ∧
      ¬ (0 ≤ spinAtFullSpeed 960 ∧ spinAtFullSpeed 960 < 360 ∧
          spinAtFullSpeed 960 = ratMod (3 / 4 * ((960 : ℕ) : ℚ)) 360) := by
  have hs : spinAtFullSpeed 960 = 360 := by
    rw [spinAtFullSpeed_eq]
    norm_num
  have hr : ratMod (3 / 4 * ((960 : ℕ) : ℚ)) 360 = 0 := by
    rw [ratMod_raw]
    norm_num
  refine ⟨by norm_num, hs, hr, ?_⟩
  rw [hs]
  norm_num

/-- Full-speed acceleration from rest: after `k` accelerate frames the velocity is
`0.005 * k`, capped at `1.5`. -/
theorem runVelocity_accelerate (k : Nat) :
    runVelocity (List.replicate k (true, false)) 0 = min (5 / 1000 * (k : ℚ)) (15 / 10) := by
  induction k with
  | zero => norm_num [runVelocity]
  | succ k ih =>
    have hstep : runVelocity (List.replicate (k + 1) (true, false)) 0 =
        updateVelocity true false (runVelocity (List.replicate k (true, false)) 0) := by
      simp [runVelocity, List.replicate_succ', List.foldl_append]
    rw [hstep, ih]
    unfold updateVelocity angularAcceleration
    push_cast
    rcases le_total (5 / 1000 * (k : ℚ)) (15 / 10) with hle | hge
    · rw [min_eq_left hle]
      simp only [if_true]
      split_ifs with hgt
      · rw [min_eq_right (by linarith)]
      · rw [min_eq_left (by linarith)]
        ring
    · rw [min_eq_right hge, min_eq_right (by linarith)]
      norm_num

/-- C7: from `angularVelocity = 0`, for any sequence of frames (whatever the RIGHT and
LEFT key levels in each) the angular velocity after each frame lies in `[0, 1.5]`; and a
decelerate frame that would take it below zero leaves it at exactly 0. -/
theorem velocity_clamped (frames : List (Bool × Bool)) (k : Nat) :
    (0 ≤ runVelocity (frames.take k) 0 ∧ runVelocity (frames.take k) 0 ≤ 15 / 10) ∧
      ∀ v : ℚ, v - angularAcceleration < 0 → updateVelocity false true v = 0 := by
  refine ⟨runVelocity_mem _ 0 le_rfl (by norm_num), fun v hv => ?_⟩
  simp [updateVelocity, hv]

/-- Witness of C7: accelerate, then two decelerate frames; and a decelerate frame from
`0.001`. -/
theorem velocity_clamped_witness :
    (0 ≤ runVelocity ([(true, false), (false, true), (false, true)].take 3) 0 ∧
        runVelocity ([(true, false), (false, true), (false, true)].take 3) 0 ≤ 15 / 10) ∧
      updateVelocity false true (1 / 1000) = 0 :=
  ⟨(velocity_clamped [(true, false), (false, true), (false, true)] 3).1,
    (velocity_clamped [] 0).2 (1 / 1000) (by norm_num [angularAcceleration])⟩

/-- C8: from rest, the velocity does not exceed 1.5 after any number `k` of the 400
accelerate frames, it is exactly 1.5 after all of them, and one decelerate frame then
gives exactly `1.5 - 0.005 = 1.495`. -/
theorem velocity_saturates (k : Nat) :
    runVelocity ((List.replicate 400 (true, false)).take k) 0 ≤ 15 / 10 ∧
      runVelocity (List.replicate 400 (true, false)) 0 = 15 / 10 ∧
      runVelocity (List.replicate 400 (true, false) ++ [(false, true)]) 0
        = 15 / 10 - 5 / 1000 ∧
      (15 / 10 - 5 / 1000 : ℚ) = 1495 / 1000 := by
  have h400 : runVelocity (List.replicate 400 (true, false)) 0 = 15 / 10 := by
    rw [runVelocity_accelerate]
    norm_num
  refine ⟨?_, h400, ?_, by norm_num⟩
  · rw [List.take_replicate, runVelocity_accelerate]
    exact min_le_right _ _
  · have : runVelocity (List.replicate 400 (true, false) ++ [(false, true)]) 0 =
        updateVelocity false true (runVelocity (List.replicate 400 (true, false)) 0) := by
      simp only [runVelocity, List.foldl_append, List.foldl_cons, List.foldl_nil]
    rw [this, h400]
    norm_num [updateVelocity, angularAcceleration]

/-! ## Free-camera constraint: lemmas and claims -/

theorem length_nonneg (v : Vec2) : 0 ≤ length v :=
  Real.sqrt_nonneg _

theorem length_sq (v : Vec2) : length v * length v = v.x * v.x + v.y * v.y :=
  Real.mul_self_sqrt (add_nonneg (mul_self_nonneg _) (mul_self_nonneg _))

theorem length_eq_zero_iff (v : Vec2) : length v = 0 ↔ v.x = 0 ∧ v.y = 0 := by
  constructor
  · intro h
    have hs := length_sq v
    rw [h] at hs
    constructor <;> nlinarith [mul_self_nonneg v.x, mul_self_nonneg v.y]
  · rintro ⟨hx, hy⟩
    simp [length, hx, hy]

/-- The length of a vector rescaled by `r / length v` is `r`. -/
theorem length_rescaled (v : Vec2) (r : ℝ) (hr : 0 ≤ r) (hv : length v ≠ 0) :
    length ⟨0 + v.x / length v * r, 0 + v.y / length v * r⟩ = r := by
  have hs := length_sq v
  have key : (0 + v.x / length v * r) * (0 + v.x / length v * r)
      + (0 + v.y / length v * r) * (0 + v.y / length v * r) = r * r := by
    field_simp
    linear_combination r ^ 2 * hs.symm
  unfold length at key ⊢
  simp only
  rw [key]
  exact Real.sqrt_mul_self hr

/-! ## Camera mode and rider selection: lemmas and claims -/

/-- After a tick, `togglePressed` is the level of the `C` key in that tick. -/
theorem pollTick_togglePressed (keys : Keys) (s : InputState) :
    (pollTick keys s).togglePressed = keys.c := by
  cases hc : keys.c <;> cases ht : s.togglePressed <;>
    simp only [pollTick, pollTab, pollToggle, hc, ht] <;> split_ifs <;> simp_all

/-- The camera mode after a tick: flipped exactly when `C` is pressed with
`togglePressed` clear. -/
theorem pollTick_freeCamera (keys : Keys) (s : InputState) :
    (pollTick keys s).freeCamera =
      if keys.c && !s.togglePressed then !s.freeCamera else s.freeCamera := by
  cases hc : keys.c <;> cases ht : s.togglePressed <;>
    simp only [pollTick, pollTab, pollToggle, hc, ht] <;> split_ifs <;> simp_all

/-- Running one more tick of a list is one `pollTick` on the state reached so far. -/
theorem runTicks_take_succ (ticks : List Keys) (s : InputState) (j : Nat)
    (hj : j < ticks.length) :
    runTicks (ticks.take (j + 1)) s = pollTick (ticks.get ⟨j, hj⟩) (runTicks (ticks.take j) s) := by
  induction ticks generalizing s j with
  | nil => simp at hj
  | cons t rest ih =>
    cases j with
    | zero => simp [runTicks]
    | succ j =>
      have hj2 : j < rest.length := by simpa using hj
      have := ih (pollTick t s) j hj2
      simpa [runTicks] using this

/-- C12: after a tick with the toggle key released, during `k ≥ 1` consecutive ticks
with the key pressed the camera mode changes on the first pressed tick and on no later
one, that is, exactly once. -/
theorem toggle_debounce (s : InputState) (release : Keys) (presses : List Keys)
    (hrel : release.c = false) (hpress : ∀ t ∈ presses, t.c = true)
    (j : Nat) (hj : j < presses.length) :
    (runTicks (presses.take (j + 1)) (pollTick release s)).freeCamera ≠
        (runTicks (presses.take j) (pollTick release s)).freeCamera ↔ j = 0 := by
  have hc : (presses.get ⟨j, hj⟩).c = true := hpress _ (List.get_mem _ _ _)
  rw [runTicks_take_succ presses _ j hj, pollTick_freeCamera, hc]
  cases j with
  | zero =>
    have h0 : (pollTick release s).togglePressed = false := by
      rw [pollTick_togglePressed, hrel]
    simp [runTicks, h0]
  | succ i =>
    have hi : i < presses.length := Nat.lt_of_succ_lt hj
    have hprev : (presses.get ⟨i, hi⟩).c = true := hpress _ (List.get_mem _ _ _)
    have h1 : (runTicks (presses.take (i + 1)) (pollTick release s)).togglePressed = true := by
      rw [runTicks_take_succ presses _ i hi, pollTick_togglePressed, hprev]
    simp [h1]

/-- Witness of C12: from the initial state, `C` released for one tick and then held for
three; checked at the third pressed tick, where the mode does not change. -/
theorem toggle_debounce_witness :
    (runTicks ([⟨true, false⟩, ⟨true, false⟩, ⟨true, false⟩].take (2 + 1))
          (pollTick ⟨false, false⟩ initialInput)).freeCamera ≠
        (runTicks ([⟨true, false⟩, ⟨true, false⟩, ⟨true, false⟩].take 2)
          (pollTick ⟨false, false⟩ initialInput)).freeCamera ↔ 2 = 0 :=
  toggle_debounce initialInput ⟨false, false⟩ [⟨true, false⟩, ⟨true, false⟩, ⟨true, false⟩]
    rfl (by decide) 2 (by decide)

/-- A tick changes the selection only when, in that tick, the camera is mounted (after
the `C` block), `TAB` is pressed and `tabPressed` was clear. -/
theorem pollTick_selection_changes (keys : Keys) (s : InputState)
    (h : (pollTick keys s).selectedHorseIndex ≠ s.selectedHorseIndex) :
    (pollTick keys s).freeCamera = false ∧ keys.tab = true ∧ s.tabPressed = false := by
  cases hc : keys.c <;> cases ht : keys.tab <;> cases hf : s.freeCamera <;>
    cases hp : s.tabPressed <;> cases hg : s.togglePressed <;>
    simp_all [pollTick, pollTab, pollToggle]

/-- C13 on the code: with `TAB` held down from a tick in free mode into the tick in which
`C` switches to the mounted camera, the selection changes on that second tick, although
`TAB` was already pressed on the tick before. -/
theorem held_tab_changes_selection :
    (runTicks [⟨false, true⟩] initialInput).selectedHorseIndex = 0 ∧
      (runTicks [⟨false, true⟩] initialInput).freeCamera = true ∧
      (runTicks [⟨false, true⟩, ⟨true, true⟩] initialInput).selectedHorseIndex = 1 ∧
      (runTicks [⟨false, true⟩, ⟨true, true⟩] initialInput).freeCamera = false := by
  simp only [runTicks, pollTick, pollTab, pollToggle, initialInput, List.foldl_cons,
    List.foldl_nil]
  decide

/-! ## Rider bob, mouse pitch and draw order: claims -/

/-- C11: at every animation time the bob offset of rider 0 is the negation of the bob
offset of rider 1, `sin t * 2.8 = -(sin (t + pi) * 2.8)`, both for the per-mesh draw
offset and for the mounted-camera offset. -/
theorem bob_antiphase (t : ℝ) :
    verticalOffset 0 t = Real.sin t * (28 / 10) ∧
      verticalOffset 1 t = Real.sin (t + Real.pi) * (28 / 10) ∧
      verticalOffset 0 t = -verticalOffset 1 t ∧
      horseYOffset 0 t = -horseYOffset 1 t ∧
      horseYOffset 0 t = verticalOffset 0 t ∧ horseYOffset 1 t = verticalOffset 1 t := by
  simp [verticalOffset, horseYOffset, Real.sin_add_pi]

/-- One call of `mouse_callback` leaves the pitch in `[-89, 89]`, whatever the state. -/
theorem mouse_callback_pitch_mem (s : MouseState) (xpos ypos : ℝ) :
    -89 ≤ (mouse_callback s xpos ypos).pitch ∧ (mouse_callback s xpos ypos).pitch ≤ 89 := by
  simp only [mouse_callback]
  split_ifs <;> constructor <;> linarith

theorem runMouse_pitch_mem (samples : List (ℝ × ℝ)) (s : MouseState)
    (h : -89 ≤ s.pitch ∧ s.pitch ≤ 89) :
    -89 ≤ (runMouse samples s).pitch ∧ (runMouse samples s).pitch ≤ 89 := by
  induction samples generalizing s with
  | nil => exact h
  | cons p rest ih => exact ih _ (mouse_callback_pitch_mem s p.1 p.2)

/-- C16: from the initial state (pitch 0), after each call of any sequence of mouse
samples delivered to `mouse_callback` the pitch lies in `[-89, 89]`. -/
theorem pitch_clamped (samples : List (ℝ × ℝ)) (k : Nat) :
    initialMouse.pitch = 0 ∧
      -89 ≤ (runMouse (samples.take k) initialMouse).pitch ∧
      (runMouse (samples.take k) initialMouse).pitch ≤ 89 := by
  refine ⟨rfl, runMouse_pitch_mem _ _ ?_⟩
  simp only [initialMouse]
  constructor <;> norm_num

/-- The submissions of `ModelLoader::Draw` for the meshes `a, a + 1, ..., a + n - 1`
up to the buffer swap: one per mesh, each with the mesh's vertex array. -/
theorem submissions_meshes (n a : Nat) (p : Option Program) (v : Option VertexArray) :
    submissions (((List.range' a n).flatMap meshDrawCalls) ++ [GLCall.swapBuffers]) p v =
      (List.range' a n).map (fun i => ⟨p, some (VertexArray.meshVAO i)⟩) := by
  induction n generalizing a v with
  | zero => simp [submissions]
  | succ n ih =>
    rw [List.range'_succ, List.flatMap_cons, List.append_assoc]
    simp only [meshDrawCalls, List.cons_append, List.nil_append, submissions, List.map_cons,
      List.append_eq]
    rw [ih]

/-- The draw submissions of one frame: ground, glow and skybox, each under its own
program, then the meshes of the model under `shaderProgram`. -/
theorem submissions_frameCalls (n : Nat) :
    submissions (frameCalls n) none none =
      [⟨some Program.groundShader, some VertexArray.groundVAO⟩,
        ⟨some Program.glowShader, some VertexArray.glowVAO⟩,
        ⟨some Program.skbShader, some VertexArray.skyboxVAO⟩]
      ++ (List.range n).map (fun i => ⟨some Program.shaderProgram,
            some (VertexArray.meshVAO i)⟩) := by
  simp only [frameCalls, modelDrawCalls, List.cons_append, List.nil_append, submissions,
    List.append_assoc, List.range_eq_range', List.append_eq]
  rw [submissions_meshes]

/-- The elements drawn by the mesh submissions of the model: the model, once per mesh. -/
theorem filterMap_mesh_elements (p : Option Program) (n : Nat) :
    ((List.range n).map (fun i => (⟨p, some (VertexArray.meshVAO i)⟩ : Submission))).filterMap
        (fun s => s.vao.map elementOf) = List.replicate n Element.carouselModel := by
  induction n with
  | zero => rfl
  | succ n ih =>
    rw [List.range_succ, List.map_append, List.filterMap_append, ih, List.replicate_succ']
    rfl

/-- C14, as the code behaves: in every frame the draw submissions are issued in the order
ground quad under the ground shader, glow quad under the glow shader, skybox cube under
the skybox shader, and then the carousel model, one submission per mesh in mesh order,
under the carousel shader that is bound again after the skybox. -/
theorem draw_order (numMeshes : Nat) :
    submissions (frameCalls numMeshes) none none =
        [⟨some Program.groundShader, some VertexArray.groundVAO⟩,
          ⟨some Program.glowShader, some VertexArray.glowVAO⟩,
          ⟨some Program.skbShader, some VertexArray.skyboxVAO⟩]
        ++ (List.range numMeshes).map (fun i => ⟨some Program.shaderProgram,
              some (VertexArray.meshVAO i)⟩) ∧
      drawnElements numMeshes =
        [Element.groundQuad, Element.glowQuad, Element.skyboxCube]
          ++ List.replicate numMeshes Element.carouselModel := by
  refine ⟨submissions_frameCalls numMeshes, ?_⟩
  unfold drawnElements
  rw [submissions_frameCalls, List.filterMap_append, filterMap_mesh_elements]
  rfl

/-- C14 fails on a model of one mesh: the four draw submissions of the frame are ground
quad, glow quad, skybox cube, carousel model, so the model is drawn last, not first. -/
theorem draw_order_counterexample :
    drawnElements 1 = [Element.groundQuad, Element.glowQuad, Element.skyboxCube,
        Element.carouselModel] ∧
      drawnElements 1 ≠ [Element.carouselModel, Element.groundQuad, Element.glowQuad,
        Element.skyboxCube] := by
  decide

/-! ## Mounted camera: lemmas and claims -/

theorem length3_unitX : length3 ⟨1, 0, 0⟩ = 1 := by simp [length3]

theorem length3_unitY : length3 ⟨0, 1, 0⟩ = 1 := by simp [length3]

theorem length3_unitZ : length3 ⟨0, 0, 1⟩ = 1 := by simp [length3]

/-- The rotation about the X axis, written out. -/
theorem rotate_unitX (m : Mat4) (angle : ℝ) :
    rotate m angle ⟨1, 0, 0⟩ =
      m * !![1, 0, 0, 0; 0, Real.cos angle, -Real.sin angle, 0;
             0, Real.sin angle, Real.cos angle, 0; 0, 0, 0, 1] := by
  simp [rotate, normalize3, length3_unitX]

/-- The rotation about the Y axis, written out. -/
theorem rotate_unitY (m : Mat4) (angle : ℝ) :
    rotate m angle ⟨0, 1, 0⟩ =
      m * !![Real.cos angle, 0, Real.sin angle, 0; 0, 1, 0, 0;
             -Real.sin angle, 0, Real.cos angle, 0; 0, 0, 0, 1] := by
  simp [rotate, normalize3, length3_unitY]

/-- The rotation about the Z axis, written out. -/
theorem rotate_unitZ (m : Mat4) (angle : ℝ) :
    rotate m angle ⟨0, 0, 1⟩ =
      m * !![Real.cos angle, -Real.sin angle, 0, 0; Real.sin angle, Real.cos angle, 0, 0;
             0, 0, 1, 0; 0, 0, 0, 1] := by
  simp [rotate, normalize3, length3_unitZ]

theorem radians_sub (a b : ℝ) : radians (a - b) = radians a - radians b := by
  unfold radians
  ring

theorem cos_radians_neg_ninety : Real.cos (radians (-90)) = 0 := by
  have h : radians (-90) = -(Real.pi / 2) := by
    unfold radians
    ring
  rw [h, Real.cos_neg, Real.cos_pi_div_two]

theorem sin_radians_neg_ninety : Real.sin (radians (-90)) = -1 := by
  have h : radians (-90) = -(Real.pi / 2) := by
    unfold radians
    ring
  rw [h, Real.sin_neg, Real.sin_pi_div_two]

/-- The vector `direction` has length 1. -/
theorem length3_direction (yaw pitch : ℝ) : length3 (direction yaw pitch) = 1 := by
  have h : (direction yaw pitch).x * (direction yaw pitch).x
      + (direction yaw pitch).y * (direction yaw pitch).y
      + (direction yaw pitch).z * (direction yaw pitch).z = 1 := by
    simp only [direction]
    nlinarith [Real.sin_sq_add_cos_sq (radians yaw), Real.sin_sq_add_cos_sq (radians pitch)]
  rw [length3, h, Real.sqrt_one]

/-- Normalizing `direction` returns it: `cameraFront` is `direction`. -/
theorem normalize3_direction (yaw pitch : ℝ) :
    normalize3 (direction yaw pitch) = direction yaw pitch := by
  simp [normalize3, length3_direction]

/-- C18: for every yaw, pitch and carousel rotation, the mounted look direction is the
free-mode direction for `(yaw, pitch)` rotated about the world Y axis by the rotation
angle; this rotation is the spin the model matrix adds to the static model matrix; and
the `y` component of the look direction depends on the pitch only. -/
theorem mounted_look_direction (yaw pitch rotation : ℝ) :
    lookDir yaw pitch rotation =
        vec3 ((rotate 1 (radians rotation) ⟨0, 1, 0⟩).mulVec (vec4 (direction yaw pitch) 0)) ∧
      modelMat rotation = rotate 1 (radians rotation) ⟨0, 1, 0⟩ * staticModelMat ∧
      (lookDir yaw pitch rotation).y = Real.sin (radians pitch) ∧
      normalize3 (direction yaw pitch) = direction yaw pitch := by
  refine ⟨?_, ?_, rfl, normalize3_direction yaw pitch⟩
  · rw [rotate_unitY, one_mul]
    simp only [lookDir, radians_sub, Real.cos_sub, Real.sin_sub, vec3, vec4, direction]
    simp [Matrix.mulVec, Matrix.dotProduct, Fin.sum_univ_four, Matrix.vecHead,
      Matrix.vecTail]
    constructor <;> ring
  · simp only [modelMat, staticModelMat, scale, rotate_unitX, rotate_unitY, rotate_unitZ,
      cos_radians_neg_ninety, sin_radians_neg_ninety, one_mul]
    ext i j
    fin_cases i <;> fin_cases j <;>
      simp [Matrix.mul_apply, Fin.sum_univ_four, Matrix.vecHead, Matrix.vecTail] <;> ring

/-! ## Point-light uploads: lemmas and claims -/

/-- The uploaded world position, written out: the anchor turned about Y. -/
theorem lightWorldPos_eq (rotation : ℝ) (b : RVec3) :
    lightWorldPos rotation b =
      ⟨Real.cos (radians rotation) * b.x + Real.sin (radians rotation) * b.z, b.y,
        -Real.sin (radians rotation) * b.x + Real.cos (radians rotation) * b.z⟩ := by
  rw [lightWorldPos, rotate_unitY, one_mul]
  simp [vec3, vec4, Matrix.mulVec, Matrix.dotProduct, Fin.sum_univ_four, Matrix.vecHead,
    Matrix.vecTail]

/-- Both loops upload one position per entry of `bulbPositions`. -/
theorem uploadLights_length (bulbPositions : List Vec3) (rotation : ℚ) :
    (uploadLights bulbPositions rotation).length = bulbPositions.length := by
  simp [uploadLights]

/-- With the carousel at rest the two shaders receive the same positions. -/
theorem frameLights_at_rest (bulbPositions : List Vec3) (rotation : ℚ)
    (h : rotation ≤ 360) :
    (frameLights bulbPositions 0 rotation).modelShader =
      (frameLights bulbPositions 0 rotation).groundShader := by
  have hu : updateRotation 0 rotation = rotation := by
    unfold updateRotation
    rw [if_neg (by linarith)]
    ring
  simp only [frameLights, hu]

/-- C15 on the code: in the first frame in which RIGHT is pressed (`rotation = 0`, and
`angularVelocity = 0.005` after the arrow-key block), the anchor `(1, 0, 0)` of a mesh
named `bulb` is uploaded to the carousel shader as `(1, 0, 0)`, turned by 0 degrees, and
to the ground shader turned by 0.0025 degrees, a different position. -/
theorem light_uploads_differ :
    loadModel [⟨"bulb".toList, [⟨1, 0, 0⟩]⟩] = [⟨1, 0, 0⟩] ∧
      updateVelocity true false 0 = 5 / 1000 ∧
      (frameLights [⟨1, 0, 0⟩] (5 / 1000) 0).modelShader = [⟨1, 0, 0⟩] ∧
      (frameLights [⟨1, 0, 0⟩] (5 / 1000) 0).groundShader =
        [⟨Real.cos (radians (1 / 400)), 0, -Real.sin (radians (1 / 400))⟩] ∧
      (frameLights [⟨1, 0, 0⟩] (5 / 1000) 0).modelShader ≠
        (frameLights [⟨1, 0, 0⟩] (5 / 1000) 0).groundShader := by
  have hload : loadModel [⟨"bulb".toList, [⟨1, 0, 0⟩]⟩] = [⟨1, 0, 0⟩] := by
    have hb : isLightMesh (toLowerName "bulb".toList) = true := by decide
    simp only [loadModel, List.foldl_cons, List.foldl_nil, meshBulbs, hb, if_true,
      List.nil_append]
    simp [clusterCenters, clusterLoop, foundCluster]
  have hv : updateVelocity true false 0 = 5 / 1000 := by
    norm_num [updateVelocity, angularAcceleration]
  have hu : updateRotation (5 / 1000) 0 = 1 / 400 := by
    norm_num [updateRotation]
  have hm : (frameLights [⟨1, 0, 0⟩] (5 / 1000) 0).modelShader = [⟨1, 0, 0⟩] := by
    simp [frameLights, uploadLights, lightWorldPos_eq, Vec3.toReal, radians]
  have hg : (frameLights [⟨1, 0, 0⟩] (5 / 1000) 0).groundShader =
      [⟨Real.cos (radians (1 / 400)), 0, -Real.sin (radians (1 / 400))⟩] := by
    simp [frameLights, uploadLights, lightWorldPos_eq, Vec3.toReal, hu]
  have hpos : 0 < Real.sin (radians (1 / 400)) := by
    apply Real.sin_pos_of_pos_of_lt_pi
    · unfold radians
      positivity
    · unfold radians
      nlinarith [Real.pi_pos]
  refine ⟨hload, hv, hm, hg, ?_⟩
  rw [hm, hg]
  intro h
  simp only [List.cons.injEq, RVec3.mk.injEq, and_true] at h
  linarith [h.2]

/-! ## Light extraction across meshes and coverage: lemmas and claims -/

/-- The loop returns its starting centers followed by a subsequence of the vertices. -/
theorem clusterLoop_sublist (vs cs : List Vec3) :
    ∃ l, clusterLoop vs cs = cs ++ l ∧ l.Sublist vs := by
  induction vs generalizing cs with
  | nil => exact ⟨[], by simp [clusterLoop], List.Sublist.slnil⟩
  | cons pos rest ih =>
    unfold clusterLoop
    split
    · obtain ⟨l, hl, hsub⟩ := ih cs
      exact ⟨l, hl, hsub.cons pos⟩
    · split
      · exact ⟨[pos], rfl, (List.singleton_sublist.2 (List.mem_cons_self _ _))⟩
      · obtain ⟨l, hl, hsub⟩ := ih (cs ++ [pos])
        exact ⟨pos :: l, by rw [hl, List.append_assoc]; rfl, hsub.cons₂ pos⟩

/-- When the loop ends below the cap, every vertex scanned is a center or is within the
threshold of a center. -/
theorem clusterLoop_covers (vs cs : List Vec3) (hlt : (clusterLoop vs cs).length < 64) :
    ∀ v ∈ vs, v ∈ clusterLoop vs cs ∨ ∃ c ∈ clusterLoop vs cs, near c v = true := by
  induction vs generalizing cs with
  | nil => intro v hv; simp at hv
  | cons pos rest ih =>
    intro v hv
    unfold clusterLoop at hlt ⊢
    split at hlt
    · rename_i hf
      rw [if_pos hf]
      rcases List.mem_cons.1 hv with rfl | hrest
      · obtain ⟨c, hc, hnear⟩ := (foundCluster_eq_true_iff cs v).1 hf
        exact Or.inr ⟨c, (clusterLoop_extends rest cs).subset hc, hnear⟩
      · exact ih cs hlt v hrest
    · rename_i hf
      rw [if_neg hf]
      split at hlt
      · rename_i hge
        omega
      · rename_i hge
        rw [if_neg hge]
        rcases List.mem_cons.1 hv with rfl | hrest
        · exact Or.inl ((clusterLoop_extends rest (cs ++ [v])).subset (by simp))
        · exact ih _ hlt v hrest

/-- Vertices that are mutually apart and fit under the cap are all kept, in order. -/
theorem clusterLoop_far (vs cs : List Vec3)
    (hfar : (cs ++ vs).Pairwise (fun a b => near a b = false))
    (hlen : (cs ++ vs).length ≤ 64) : clusterLoop vs cs = cs ++ vs := by
  induction vs generalizing cs with
  | nil => simp [clusterLoop]
  | cons pos rest ih =>
    have hfar2 : (cs ++ [pos] ++ rest).Pairwise (fun a b => near a b = false) := by
      simpa using hfar
    have hnot : foundCluster cs pos = false := by
      rw [foundCluster_eq_false_iff]
      intro c hc
      have h1 := (List.pairwise_append.1 hfar).2.2 c hc pos (List.mem_cons_self _ _)
      exact h1
    unfold clusterLoop
    rw [hnot]
    simp only [Bool.false_eq_true, if_false]
    split
    · rename_i hge
      simp only [List.length_append, List.length_cons, List.length_nil] at hge hlen
      have hrest : rest = [] := List.eq_nil_of_length_eq_zero (by omega)
      simp [hrest]
    · have := ih (cs ++ [pos]) hfar2 (by simpa using hlen)
      simpa using this

/-- The member `bulbPositions` is the concatenation of the per-mesh contributions. -/
theorem loadModel_eq_flatten (meshes : List MeshData) :
    loadModel meshes = (meshes.map meshBulbs).flatten := by
  have h : ∀ (l : List MeshData) (init : List Vec3),
      l.foldl (fun bulbPositions mesh => bulbPositions ++ meshBulbs mesh) init
        = init ++ (l.map meshBulbs).flatten := by
    intro l
    induction l with
    | nil => intro init; simp
    | cons m rest ih => intro init; simp [ih]
  simpa [loadModel] using h meshes []

/-- The vertices of `lineVertices` are mutually apart. -/
theorem lineVertices_far (n : Nat) :
    (lineVertices n).Pairwise (fun a b => near a b = false) := by
  unfold lineVertices
  rw [List.pairwise_map]
  refine (List.pairwise_lt_range n).imp ?_
  intro i j hij
  have h1 : (i : ℚ) + 1 ≤ (j : ℚ) := by exact_mod_cast hij
  simp only [near, dist2, clusterThreshold, decide_eq_false_iff_not, not_lt]
  nlinarith

/-- The bulb positions of `twoLightMeshes`: the 64 centers of the first mesh, then the
center of the second. -/
theorem loadModel_twoLightMeshes :
    loadModel twoLightMeshes = lineVertices 64 ++ [⟨0, 0, 0⟩] := by
  have h1 : clusterCenters (lineVertices 64) = lineVertices 64 := by
    have := clusterLoop_far (lineVertices 64) [] (by simpa using lineVertices_far 64)
      (by simp [lineVertices])
    simpa [clusterCenters] using this
  have h2 : clusterCenters [⟨0, 0, 0⟩] = [⟨0, 0, 0⟩] := by
    simp [clusterCenters, clusterLoop, foundCluster]
  have hb : isLightMesh (toLowerName "bulb".toList) = true := by decide
  have hl : isLightMesh (toLowerName "light".toList) = true := by decide
  rw [loadModel_eq_flatten]
  simp only [twoLightMeshes, List.map_cons, List.map_nil, meshBulbs, hb, hl, if_true, h1,
    h2, List.flatten_cons, List.flatten_nil, List.append_nil]

/-- C19: the list returned by `GetBulbPositions` is the concatenation, in mesh order, of
the per-mesh cluster lists, so the cap of 64 and the separation of 0.15 hold per mesh
only: the model `twoLightMeshes`, of two light-bearing meshes, has 65 anchors, two of
them at distance 0, and each of the two upload loops of a frame sends all 65. -/
theorem bulb_positions_uncapped_across_meshes :
    (∀ meshes : List MeshData, loadModel meshes = (meshes.map meshBulbs).flatten) ∧
      ∃ meshes : List MeshData,
        meshes.length = 2 ∧ (∀ m ∈ meshes, LightBearing m.name) ∧
        64 < (loadModel meshes).length ∧
        (∃ (i j : Nat) (a b : Vec3), i ≠ j ∧ (loadModel meshes)[i]? = some a ∧
          (loadModel meshes)[j]? = some b ∧
          Real.sqrt ((dist2 a b : ℚ) : ℝ) < (15 / 100 : ℝ)) ∧
        ∀ angularVelocity rotation : ℚ,
          (frameLights (loadModel meshes) angularVelocity rotation).modelShader.length
              = (loadModel meshes).length ∧
            (frameLights (loadModel meshes) angularVelocity rotation).groundShader.length
              = (loadModel meshes).length := by
  refine ⟨loadModel_eq_flatten, twoLightMeshes, rfl, ?_, ?_, ?_, ?_⟩
  · intro m hm
    simp only [twoLightMeshes, List.mem_cons, List.mem_singleton, List.not_mem_nil,
      or_false] at hm
    rcases hm with rfl | rfl
    · exact Or.inl ⟨[], "bulb".toList, [], rfl, by decide⟩
    · exact Or.inr (Or.inl ⟨[], "light".toList, [], rfl, by decide⟩)
  · rw [loadModel_twoLightMeshes]
    simp [lineVertices]
  · refine ⟨0, 64, ⟨0, 0, 0⟩, ⟨0, 0, 0⟩, by decide, ?_, ?_, ?_⟩
    · rw [loadModel_twoLightMeshes]
      rw [List.getElem?_append_left (by simp [lineVertices])]
      simp [lineVertices, List.getElem?_map, List.getElem?_range]
    · rw [loadModel_twoLightMeshes]
      simp [lineVertices, List.getElem?_append]
    · rw [dist2_self]
      norm_num
  · intro angularVelocity rotation
    simp [frameLights, uploadLights]

/-! ## Binary32 arithmetic: evaluation lemmas -/

/-- A real within one half of an integer rounds to that integer. -/
theorem roundTiesEven_eq (y : ℝ) (m : ℤ) (h1 : (m : ℝ) - 1 / 2 < y) (h2 : y < m + 1 / 2) :
    roundTiesEven y = m := by
  unfold roundTiesEven
  by_cases hm : (m : ℝ) ≤ y
  · have hf : ⌊y⌋ = m := by
      rw [Int.floor_eq_iff]
      constructor
      · exact hm
      · linarith
    rw [hf, if_pos (by linarith)]
  · have hf : ⌊y⌋ = m - 1 := by
      rw [Int.floor_eq_iff]
      push_cast
      constructor <;> linarith
    rw [hf]
    push_cast
    rw [if_neg (by linarith), if_pos (by linarith)]
    ring

/-- The binary32 spacing around a positive real with binary exponent `e ≥ -126`. -/
theorem ulpF32_eq (x : ℝ) (e : ℤ) (he : -126 ≤ e) (hlo : (2 : ℝ) ^ e ≤ x)
    (hhi : x < (2 : ℝ) ^ (e + 1)) : ulpF32 x = (2 : ℝ) ^ (e - 23) := by
  have hpos : 0 < x := lt_of_lt_of_le (by positivity) hlo
  have hlog : Int.log 2 |x| = e := by
    rw [abs_of_pos hpos]
    apply le_antisymm
    · have := (Int.lt_zpow_iff_log_lt (b := 2) (by norm_num) hpos).1 (by exact_mod_cast hhi)
      omega
    · exact (Int.zpow_le_iff_le_log (b := 2) (by norm_num) hpos).1 (by exact_mod_cast hlo)
  rw [ulpF32, hlog, max_eq_left he]

/-- Evaluation of `roundF32` on a positive real: the result is the grid point
`m * 2 ^ (e - 23)` within half a spacing of it. -/
theorem roundF32_eq (x c : ℝ) (e m : ℤ) (he : -126 ≤ e) (hlo : (2 : ℝ) ^ e ≤ x)
    (hhi : x < (2 : ℝ) ^ (e + 1)) (h1 : (m : ℝ) - 1 / 2 < x / (2 : ℝ) ^ (e - 23))
    (h2 : x / (2 : ℝ) ^ (e - 23) < m + 1 / 2) (hc : c = m * (2 : ℝ) ^ (e - 23))
    (hc0 : 0 ≤ c) (hfin : c < (2 : ℝ) ^ (128 : ℤ)) : roundF32 x = some c := by
  unfold roundF32
  rw [ulpF32_eq x e he hlo hhi, roundTiesEven_eq _ m h1 h2, ← hc, abs_of_nonneg hc0,
    if_pos hfin]

/-- Evaluation of `roundF32` on a square root. -/
theorem roundF32_sqrt_eq (s c : ℝ) (e m : ℤ) (he : -126 ≤ e)
    (hlo : ((2 : ℝ) ^ e) ^ 2 ≤ s) (hhi : s < ((2 : ℝ) ^ (e + 1)) ^ 2)
    (hm : 0 ≤ (m : ℝ) - 1 / 2)
    (h1 : (((m : ℝ) - 1 / 2) * (2 : ℝ) ^ (e - 23)) ^ 2 < s)
    (h2 : s < (((m : ℝ) + 1 / 2) * (2 : ℝ) ^ (e - 23)) ^ 2)
    (hc : c = m * (2 : ℝ) ^ (e - 23))
    (hc0 : 0 ≤ c) (hfin : c < (2 : ℝ) ^ (128 : ℤ)) : roundF32 (Real.sqrt s) = some c := by
  have hq : (0 : ℝ) < (2 : ℝ) ^ (e - 23) := by positivity
  have hs : 0 ≤ s := le_trans (sq_nonneg _) hlo
  refine roundF32_eq _ c e m he ?_ ?_ ?_ ?_ hc hc0 hfin
  · exact Real.le_sqrt_of_sq_le hlo
  · rw [Real.sqrt_lt' (by positivity)]
    exact hhi
  · rw [lt_div_iff₀ hq, Real.lt_sqrt (mul_nonneg hm hq.le)]
    exact h1
  · rw [div_lt_iff₀ hq, Real.sqrt_lt' (mul_pos (by linarith) hq)]
    exact h2

/-- Zero is a binary32 number. -/
theorem roundF32_zero : roundF32 0 = some 0 := by
  have h : roundTiesEven (0 / ulpF32 0) = 0 := by
    apply roundTiesEven_eq <;> norm_num
  unfold roundF32
  rw [h]
  norm_num

/-- A positive real below half the smallest subnormal number underflows to zero. -/
theorem roundF32_tiny (x : ℝ) (h0 : 0 < x) (h1 : x < (2 : ℝ) ^ (-150 : ℤ)) :
    roundF32 x = some 0 := by
  have hlog : Int.log 2 |x| < -126 := by
    rw [abs_of_pos h0]
    apply (Int.lt_zpow_iff_log_lt (b := 2) (by norm_num) h0).1
    have : (2 : ℝ) ^ (-150 : ℤ) ≤ (2 : ℝ) ^ (-126 : ℤ) := by norm_num
    exact_mod_cast lt_of_lt_of_le h1 this
  have hulp : ulpF32 x = (2 : ℝ) ^ (-149 : ℤ) := by
    rw [ulpF32, max_eq_right hlog.le]
    norm_num
  have hq : (0 : ℝ) < (2 : ℝ) ^ (-149 : ℤ) := by positivity
  have h : roundTiesEven (x / (2 : ℝ) ^ (-149 : ℤ)) = 0 := by
    apply roundTiesEven_eq
    · have : 0 < x / (2 : ℝ) ^ (-149 : ℤ) := div_pos h0 hq
      push_cast
      linarith
    · rw [div_lt_iff₀ hq]
      calc x < (2 : ℝ) ^ (-150 : ℤ) := h1
        _ = ((0 : ℤ) + 1 / 2) * (2 : ℝ) ^ (-149 : ℤ) := by norm_num
  unfold roundF32
  rw [hulp, h]
  norm_num

/-! ## Rounding error of binary32 operations -/

/-- Rounding to the nearest integer moves a real by at most one half. -/
theorem roundTiesEven_err (y : ℝ) : |(roundTiesEven y : ℝ) - y| ≤ 1 / 2 := by
  unfold roundTiesEven
  have h1 := Int.floor_le y
  have h2 := Int.lt_floor_add_one y
  split_ifs with ha hb hc
  · rw [abs_le]; constructor <;> linarith
  · push_cast; rw [abs_le]; constructor <;> linarith
  · rw [abs_le]; constructor <;> linarith
  · push_cast; rw [abs_le]; constructor <;> linarith

/-- The binary32 spacing is positive. -/
theorem ulpF32_pos (x : ℝ) : 0 < ulpF32 x := by
  unfold ulpF32; positivity

/-- The binary32 spacing around a non-zero real: at most `2 ^ -23` times its magnitude, or the
subnormal spacing `2 ^ -149`. -/
theorem ulpF32_le (x : ℝ) (hx0 : x ≠ 0) :
    ulpF32 x ≤ 1 / 8388608 * |x| + (2 : ℝ) ^ (-149 : ℤ) := by
  unfold ulpF32
  have hpos : 0 < |x| := abs_pos.2 hx0
  have h3 : (0 : ℝ) < (2 : ℝ) ^ (-149 : ℤ) := by positivity
  rcases le_total (Int.log 2 |x|) (-126) with h | h
  · rw [max_eq_right h]
    have e : (2 : ℝ) ^ ((-126 : ℤ) - 23) = (2 : ℝ) ^ (-149 : ℤ) := by norm_num
    rw [e]
    linarith
  · rw [max_eq_left h]
    have := Int.zpow_log_le_self (b := 2) (by norm_num) hpos
    have h2 : (2 : ℝ) ^ (Int.log 2 |x| - 23) = 1 / 8388608 * (2 : ℝ) ^ (Int.log 2 |x|) := by
      rw [zpow_sub₀ (by norm_num)]; norm_num; ring
    rw [h2]
    push_cast at this
    linarith

/-- The rounding error of `roundF32`: half a spacing. -/
theorem roundF32_err (t c : ℝ) (h : roundF32 t = some c) :
    |c - t| ≤ 1 / 16777216 * |t| + (2 : ℝ) ^ (-150 : ℤ) := by
  have h150 : (0 : ℝ) < (2 : ℝ) ^ (-150 : ℤ) := by positivity
  by_cases ht : t = 0
  · subst ht
    rw [roundF32_zero] at h
    simp only [Option.some.injEq] at h
    rw [← h]
    simp only [sub_zero, abs_zero, mul_zero, zero_add]
    exact h150.le
  unfold roundF32 at h
  split_ifs at h with hfin
  simp only [Option.some.injEq] at h
  have hu := ulpF32_pos t
  have hr := roundTiesEven_err (t / ulpF32 t)
  have hle := ulpF32_le t ht
  have e1 : c - t = ((roundTiesEven (t / ulpF32 t) : ℝ) - t / ulpF32 t) * ulpF32 t := by
    rw [← h]; field_simp
  rw [e1, abs_mul, abs_of_pos hu]
  have : |(roundTiesEven (t / ulpF32 t) : ℝ) - t / ulpF32 t| * ulpF32 t ≤ 1 / 2 * ulpF32 t :=
    mul_le_mul_of_nonneg_right hr hu.le
  have e3 : (2 : ℝ) ^ (-150 : ℤ) = 1 / 2 * (2 : ℝ) ^ (-149 : ℤ) := by
    rw [show (-150 : ℤ) = -149 - 1 by norm_num, zpow_sub₀ (by norm_num)]; norm_num
  rw [e3]
  generalize (2 : ℝ) ^ (-149 : ℤ) = a at *
  linarith

/-- A real of magnitude at most `2 ^ 127` rounds to a finite binary32 number. -/
theorem roundF32_finite (t : ℝ) (ht : |t| ≤ (2 : ℝ) ^ (127 : ℤ)) : ∃ c, roundF32 t = some c := by
  by_cases ht0 : t = 0
  · exact ⟨0, by rw [ht0, roundF32_zero]⟩
  have hu := ulpF32_pos t
  have hr := roundTiesEven_err (t / ulpF32 t)
  have hle := ulpF32_le t ht0
  have e1 : (roundTiesEven (t / ulpF32 t) : ℝ) * ulpF32 t
      = ((roundTiesEven (t / ulpF32 t) : ℝ) - t / ulpF32 t) * ulpF32 t + t := by
    field_simp
  have h3 : |((roundTiesEven (t / ulpF32 t) : ℝ) - t / ulpF32 t) * ulpF32 t| ≤ 1 / 2 * ulpF32 t := by
    rw [abs_mul, abs_of_pos hu]
    exact mul_le_mul_of_nonneg_right hr hu.le
  have hfin : |(roundTiesEven (t / ulpF32 t) : ℝ) * ulpF32 t| < (2 : ℝ) ^ (128 : ℤ) := by
    rw [e1]
    refine lt_of_le_of_lt (abs_add _ _) ?_
    have e4 : (2 : ℝ) ^ (128 : ℤ) = 2 * (2 : ℝ) ^ (127 : ℤ) := by
      rw [show (128 : ℤ) = 127 + 1 by norm_num, zpow_add₀ (by norm_num)]; norm_num
    have e5 : (2 : ℝ) ^ (-149 : ℤ) ≤ 1 := by
      apply zpow_le_one_of_nonpos₀ <;> norm_num
    have e7 : (4 : ℝ) ≤ (2 : ℝ) ^ (127 : ℤ) := by
      have : (2 : ℝ) ^ (2 : ℤ) ≤ (2 : ℝ) ^ (127 : ℤ) := zpow_le_zpow_right₀ (by norm_num) (by norm_num)
      norm_num at this ⊢
    rw [e4]
    have := abs_nonneg t
    generalize (2 : ℝ) ^ (-149 : ℤ) = a at *
    generalize (2 : ℝ) ^ (127 : ℤ) = b at *
    linarith
  exact ⟨_, by unfold roundF32; rw [if_pos hfin]⟩

/-! ## Free-camera constraint: claims -/

/-- The Y clamp lands in `[0.2, carouselHeight]`. -/
theorem clampY_mem (y : ℝ) : 2 / 10 ≤ clampY y ∧ clampY y ≤ carouselHeight := by
  unfold clampY carouselHeight yFloor
  simp only
  split_ifs <;> constructor <;> linarith

/-- The `float` evaluation of the step clamps `y` like the exact one. -/
theorem constrainCameraF32_y (pos : CameraPos) : (constrainCameraF32 pos).y = clampY pos.y := by
  unfold constrainCameraF32
  simp only
  split <;> rfl

/-- The horizontal push, in exact arithmetic, for a camera off the axis and inside the
radius. -/
theorem pushOut_inside (v : Vec2) (h0 : length v ≠ 0) (h3 : length v < carouselRadius) :
    pushOut v = some ⟨0 + v.x / length v * carouselRadius,
      0 + v.y / length v * carouselRadius⟩ := by
  have hv : (⟨v.x - 0, v.y - 0⟩ : Vec2) = v := by
    cases v
    simp
  simp only [pushOut, hv, if_pos h3, normalize, if_neg h0, Option.map_some', sub_zero]

/-- A camera at the radius or beyond keeps its horizontal place. -/
theorem pushOut_outside (v : Vec2) (h3 : ¬ length v < carouselRadius) : pushOut v = some v := by
  have hv : (⟨v.x - 0, v.y - 0⟩ : Vec2) = v := by
    cases v
    simp
  simp only [pushOut, hv, if_neg h3]

/-- In exact arithmetic a camera off the axis ends at horizontal distance at least 3. -/
theorem pushOut_exact (v : Vec2) (h0 : length v ≠ 0) :
    ∃ xz, pushOut v = some xz ∧ carouselRadius ≤ length xz := by
  by_cases h3 : length v < carouselRadius
  · exact ⟨_, pushOut_inside v h0 h3,
      (length_rescaled v carouselRadius (by norm_num [carouselRadius]) h0).ge⟩
  · exact ⟨v, pushOut_outside v h3, not_lt.1 h3⟩

/-! ## Free-camera constraint: error bounds of the `float` evaluation -/

/-- The result of `roundF32` on a real of magnitude at most `B`: an overflow, which needs
a large `B`, or a number within the rounding error. -/
theorem roundF32_cases (t B : ℝ) (hB : |t| ≤ B) :
    (roundF32 t = none ∧ 10 ^ 30 < B) ∨
      ∃ c, roundF32 t = some c ∧ |c - t| ≤ 6 / 10 ^ 8 * B + 1 / 10 ^ 40 := by
  rcases h : roundF32 t with _ | c
  · left
    refine ⟨rfl, ?_⟩
    by_contra hlt
    push_neg at hlt
    have h127 : (10 : ℝ) ^ 30 ≤ (2 : ℝ) ^ (127 : ℤ) := by norm_num
    obtain ⟨c, hc⟩ := roundF32_finite t (le_trans hB (le_trans hlt h127))
    rw [h] at hc
    cases hc
  · right
    refine ⟨c, rfl, ?_⟩
    have h1 := roundF32_err t c h
    have e : (2 : ℝ) ^ (-150 : ℤ) ≤ 1 / 10 ^ 40 := by norm_num
    have h2 := abs_nonneg t
    linarith

/-- The error of a product of two approximations. -/
theorem abs_mul_sub_le (A A0 B B0 α β MA MB : ℝ) (hA : |A - A0| ≤ α) (hB : |B - B0| ≤ β)
    (hA0 : |A0| ≤ MA) (hBm : |B| ≤ MB) : |A * B - A0 * B0| ≤ α * MB + MA * β := by
  have e : A * B - A0 * B0 = (A - A0) * B + A0 * (B - B0) := by ring
  rw [e]
  refine le_trans (abs_add _ _) ?_
  rw [abs_mul, abs_mul]
  have h1 : |A - A0| * |B| ≤ α * MB :=
    mul_le_mul hA hBm (abs_nonneg _) (le_trans (abs_nonneg _) hA)
  have h2 : |A0| * |B - B0| ≤ MA * β :=
    mul_le_mul hA0 hB (abs_nonneg _) (le_trans (abs_nonneg _) hA0)
  linarith

/-- The magnitude of an approximation. -/
theorem abs_le_of_near (A A0 α M : ℝ) (hA : |A - A0| ≤ α) (hA0 : |A0| ≤ M) : |A| ≤ M + α := by
  have e : A = A0 + (A - A0) := by ring
  rw [e]
  refine le_trans (abs_add _ _) ?_
  linarith

/-- A coordinate is no longer than the vector. -/
theorem abs_le_length_x (x z : ℝ) : |x| ≤ length ⟨x, z⟩ := by
  apply Real.abs_le_sqrt
  nlinarith [mul_self_nonneg z]

/-- A coordinate is no longer than the vector. -/
theorem abs_le_length_z (x z : ℝ) : |z| ≤ length ⟨x, z⟩ := by
  apply Real.abs_le_sqrt
  nlinarith [mul_self_nonneg x]

/-- A real within a relative error `ε` of `D * D` has its square root within the relative
error `ε` of `D`. -/
theorem sqrt_near (s D ε : ℝ) (hD : 0 < D) (h0 : 0 ≤ ε) (h1 : ε ≤ 1)
    (h : |s - D * D| ≤ ε * (D * D)) : |Real.sqrt s - D| ≤ ε * D := by
  have hs := abs_le.1 h
  have hDD : 0 ≤ D * D := mul_self_nonneg D
  have hk : 0 ≤ D * D * ε * (1 - ε) := mul_nonneg (mul_nonneg hDD h0) (by linarith)
  have hk2 : 0 ≤ D * D * ε * ε := mul_nonneg (mul_nonneg hDD h0) h0
  have hk3 : 0 ≤ D * D * ε := mul_nonneg hDD h0
  rw [abs_le]
  constructor
  · have : D - ε * D ≤ Real.sqrt s := by
      apply Real.le_sqrt_of_sq_le
      have e : (D - ε * D) ^ 2 = D * D - ε * (D * D) - D * D * ε * (1 - ε) := by ring
      rw [e]
      linarith
    linarith
  · have : Real.sqrt s ≤ D + ε * D := by
      rw [Real.sqrt_le_iff]
      constructor
      · have := mul_nonneg h0 hD.le
        linarith
      · have e : (D + ε * D) ^ 2 = D * D + ε * (D * D) + D * D * ε + D * D * ε * ε := by ring
        rw [e]
        linarith
    linarith

/-- The offset `camXZ - centerXZ` in one coordinate, as `float` evaluates it. -/
theorem offF32_cases (x D : ℝ) (hx : |x| ≤ D) (hD : 1 / 1000 ≤ D) :
    (f32sub (some x) (some 0) = none ∧ 4 < D) ∨
      ∃ X, f32sub (some x) (some 0) = some X ∧ |X - x| ≤ 7 / 10 ^ 8 * D := by
  have h1 : f32sub (some x) (some 0) = roundF32 x := by
    simp only [f32sub, Option.some_bind, sub_zero]
  rw [h1]
  rcases roundF32_cases x D hx with ⟨hn, hbig⟩ | ⟨X, hX, hXe⟩
  · left
    exact ⟨hn, by linarith⟩
  · right
    exact ⟨X, hX, by linarith⟩

/-- The square of one coordinate of the offset, as `float` evaluates it. -/
theorem sqF32_cases (x X D : ℝ) (hx : |x| ≤ D) (hD : 1 / 1000 ≤ D)
    (hX : |X - x| ≤ 7 / 10 ^ 8 * D) :
    (f32mul (some X) (some X) = none ∧ 4 < D) ∨
      ∃ a, f32mul (some X) (some X) = some a ∧ |a - x * x| ≤ 22 / 10 ^ 8 * (D * D) := by
  have h1 : f32mul (some X) (some X) = roundF32 (X * X) := by
    simp only [f32mul, Option.some_bind]
  rw [h1]
  have hDD : 1 / 10 ^ 6 ≤ D * D := by nlinarith
  have hXa : |X| ≤ D + 7 / 10 ^ 8 * D := abs_le_of_near X x _ D hX hx
  have hp := abs_mul_sub_le X x X x _ _ D _ hX hX hx hXa
  have hxx : |x * x| ≤ D * D := by
    rw [abs_mul]
    exact mul_le_mul hx hx (abs_nonneg _) (by linarith)
  have hXX := abs_le_of_near (X * X) (x * x) _ _ hp hxx
  rcases roundF32_cases (X * X) _ hXX with ⟨hn, hbig⟩ | ⟨a, ha, hae⟩
  · left
    refine ⟨hn, ?_⟩
    by_contra h4
    push_neg at h4
    have : D * D ≤ 16 := by nlinarith
    nlinarith
  · right
    refine ⟨a, ha, ?_⟩
    have e : a - x * x = (a - X * X) + (X * X - x * x) := by ring
    rw [e]
    refine le_trans (abs_add _ _) ?_
    nlinarith

/-- The distance `length(camXZ - centerXZ)`, as `float` evaluates it, from the rounded
offsets: an overflow, for a camera far away, or a number within a relative error of
`6e-7` of the exact distance. -/
theorem distF32_cases (x z X Z : ℝ) (hD : 1 / 1000 ≤ length ⟨x, z⟩)
    (hX : |X - x| ≤ 7 / 10 ^ 8 * length ⟨x, z⟩) (hZ : |Z - z| ≤ 7 / 10 ^ 8 * length ⟨x, z⟩) :
    (f32sqrt (f32add (f32mul (some X) (some X)) (f32mul (some Z) (some Z))) = none ∧
        4 < length ⟨x, z⟩) ∨
      ∃ g, f32sqrt (f32add (f32mul (some X) (some X)) (f32mul (some Z) (some Z))) = some g ∧
        |g - length ⟨x, z⟩| ≤ 6 / 10 ^ 7 * length ⟨x, z⟩ := by
  have hsq : length ⟨x, z⟩ * length ⟨x, z⟩ = x * x + z * z := length_sq ⟨x, z⟩
  have hx := abs_le_length_x x z
  have hz := abs_le_length_z x z
  generalize length ⟨x, z⟩ = D at *
  have hDD : 1 / 10 ^ 6 ≤ D * D := by nlinarith
  rcases sqF32_cases x X D hx hD hX with ⟨hn, hbig⟩ | ⟨a, ha, hae⟩
  · left
    rw [hn]
    exact ⟨rfl, hbig⟩
  rcases sqF32_cases z Z D hz hD hZ with ⟨hn, hbig⟩ | ⟨b, hb, hbe⟩
  · left
    rw [ha, hn]
    exact ⟨rfl, hbig⟩
  rw [ha, hb]
  have h1 : f32add (some a) (some b) = roundF32 (a + b) := by
    simp only [f32add, Option.some_bind]
  rw [h1]
  have hab : |a + b - D * D| ≤ 44 / 10 ^ 8 * (D * D) := by
    have e : a + b - D * D = (a - x * x) + (b - z * z) := by rw [hsq]; ring
    rw [e]
    refine le_trans (abs_add _ _) ?_
    linarith
  have hDDa : |D * D| ≤ D * D := by rw [abs_of_nonneg (by linarith)]
  have habm := abs_le_of_near (a + b) (D * D) _ _ hab hDDa
  rcases roundF32_cases (a + b) _ habm with ⟨hn, hbig⟩ | ⟨s, hs, hse⟩
  · left
    rw [hn]
    refine ⟨rfl, ?_⟩
    by_contra h4
    push_neg at h4
    have : D * D ≤ 16 := by nlinarith
    linarith
  rw [hs]
  have hsD : |s - D * D| ≤ 51 / 10 ^ 8 * (D * D) := by
    have e : s - D * D = (s - (a + b)) + (a + b - D * D) := by ring
    rw [e]
    refine le_trans (abs_add _ _) ?_
    linarith
  have hsD2 := abs_le.1 hsD
  have hs0 : ¬ s < 0 := by
    push_neg
    linarith
  have h2 : f32sqrt (some s) = roundF32 (Real.sqrt s) := by
    simp only [f32sqrt, Option.some_bind, if_neg hs0]
  rw [h2]
  have hDpos : 0 < D := by linarith
  have hq : |Real.sqrt s - D| ≤ 51 / 10 ^ 8 * D :=
    sqrt_near s D _ hDpos (by norm_num) (by norm_num) hsD
  have hDa : |D| ≤ D := by rw [abs_of_pos hDpos]
  have hqm := abs_le_of_near (Real.sqrt s) D _ _ hq hDa
  rcases roundF32_cases (Real.sqrt s) _ hqm with ⟨hn, hbig⟩ | ⟨g, hg, hge⟩
  · left
    refine ⟨hn, ?_⟩
    linarith
  · right
    refine ⟨g, hg, ?_⟩
    have e : g - D = (g - Real.sqrt s) + (Real.sqrt s - D) := by ring
    rw [e]
    refine le_trans (abs_add _ _) ?_
    linarith

/-- One coordinate of `centerXZ + pushDir * carouselRadius`, as `float` evaluates it from
the rounded offset `X` and the rounded distance `g`: a finite number within `3e-6` of the
exact `3 / D * x`. -/
theorem pushF32_coord (x X g D : ℝ) (hD : 1 / 1000 ≤ D) (hD4 : D ≤ 4) (hx : |x| ≤ D)
    (hX : |X - x| ≤ 7 / 10 ^ 8 * D) (hg : |g - D| ≤ 6 / 10 ^ 7 * D) :
    ∃ out, f32add (some 0) (f32mul (f32mul (some X) (f32div (some 1) (some g))) (some 3))
        = some out ∧ |out - 3 / D * x| ≤ 3 / 10 ^ 6 := by
  have hDpos : 0 < D := by linarith
  have hg2 := abs_le.1 hg
  have hgpos : 0 < g := by linarith
  have hgne : ¬ g = 0 := ne_of_gt hgpos
  obtain ⟨r, hr⟩ : ∃ r : ℝ, r = 1 / D := ⟨_, rfl⟩
  have hrpos : 0 < r := by rw [hr]; positivity
  have hDr : D * r = 1 := by rw [hr]; field_simp
  have hr1000 : r ≤ 1000 := by
    have := mul_nonneg hrpos.le (show (0 : ℝ) ≤ 1000 * D - 1 by linarith)
    linarith
  have hr4 : 1 ≤ 4 * r := by
    have := mul_nonneg hrpos.le (show (0 : ℝ) ≤ 4 - D by linarith)
    linarith
  have hgoal : 3 / D * x = 3 * (x * r) := by rw [hr]; ring
  rw [hgoal]
  -- the reciprocal of the distance
  have hgr1 : r * (D - 6 / 10 ^ 7 * D) ≤ r * g := mul_le_mul_of_nonneg_left (by linarith) hrpos.le
  have hgr2 : r * g ≤ r * (D + 6 / 10 ^ 7 * D) := mul_le_mul_of_nonneg_left (by linarith) hrpos.le
  have hig : |1 / g - r| ≤ 61 / 10 ^ 8 * r := by
    rw [abs_le]
    constructor
    · have : r - 61 / 10 ^ 8 * r ≤ 1 / g := by
        rw [le_div_iff₀ hgpos]
        linarith
      linarith
    · have : 1 / g ≤ r + 61 / 10 ^ 8 * r := by
        rw [div_le_iff₀ hgpos]
        linarith
      linarith
  have hra : |r| ≤ r := by rw [abs_of_pos hrpos]
  have higm := abs_le_of_near (1 / g) r _ _ hig hra
  have h1 : f32div (some 1) (some g) = roundF32 (1 / g) := by
    simp only [f32div, Option.some_bind, if_neg hgne]
  rw [h1]
  rcases roundF32_cases (1 / g) _ higm with ⟨_, hbig⟩ | ⟨inv, hinv, hinve⟩
  · exfalso
    linarith
  rw [hinv]
  have hir : |inv - r| ≤ 68 / 10 ^ 8 * r := by
    have e : inv - r = (inv - 1 / g) + (1 / g - r) := by ring
    rw [e]
    refine le_trans (abs_add _ _) ?_
    linarith
  have hia := abs_le_of_near inv r _ _ hir hra
  -- the push direction
  have hp := abs_mul_sub_le X x inv r _ _ D _ hX hir hx hia
  have hxr : |x * r| ≤ 1 := by
    rw [abs_mul, abs_of_pos hrpos, ← hDr]
    exact mul_le_mul_of_nonneg_right hx hrpos.le
  have hp2 : |X * inv - x * r| ≤ 76 / 10 ^ 8 := by
    refine le_trans hp ?_
    have e : 7 / 10 ^ 8 * D * (r + 68 / 10 ^ 8 * r) + D * (68 / 10 ^ 8 * r)
        = (7 / 10 ^ 8 * (1 + 68 / 10 ^ 8) + 68 / 10 ^ 8) * (D * r) := by ring
    rw [e, hDr]
    norm_num
  have hpm := abs_le_of_near (X * inv) (x * r) _ _ hp2 hxr
  have h2 : f32mul (some X) (some inv) = roundF32 (X * inv) := by
    simp only [f32mul, Option.some_bind]
  rw [h2]
  rcases roundF32_cases (X * inv) _ hpm with ⟨_, hbig⟩ | ⟨pX, hpX, hpXe⟩
  · exfalso
    norm_num at hbig
  rw [hpX]
  have hpr : |pX - x * r| ≤ 83 / 10 ^ 8 := by
    have e : pX - x * r = (pX - X * inv) + (X * inv - x * r) := by ring
    rw [e]
    refine le_trans (abs_add _ _) ?_
    linarith
  have hpa := abs_le_of_near pX (x * r) _ _ hpr hxr
  -- times the radius
  have h3 : f32mul (some pX) (some 3) = roundF32 (pX * 3) := by
    simp only [f32mul, Option.some_bind]
  rw [h3]
  have hp3m : |pX * 3| ≤ 3 * (1 + 83 / 10 ^ 8) := by
    rw [abs_mul, abs_of_pos (show (0 : ℝ) < 3 by norm_num)]
    linarith
  rcases roundF32_cases (pX * 3) _ hp3m with ⟨_, hbig⟩ | ⟨p3, hp3, hp3e⟩
  · exfalso
    norm_num at hbig
  rw [hp3]
  have hp3r : |p3 - 3 * (x * r)| ≤ 268 / 10 ^ 8 := by
    have e : p3 - 3 * (x * r) = (p3 - pX * 3) + 3 * (pX - x * r) := by ring
    rw [e]
    refine le_trans (abs_add _ _) ?_
    rw [abs_mul, abs_of_pos (show (0 : ℝ) < 3 by norm_num)]
    linarith
  have h3xr : |3 * (x * r)| ≤ 3 := by
    rw [abs_mul, abs_of_pos (show (0 : ℝ) < 3 by norm_num)]
    linarith
  have hp3a := abs_le_of_near p3 (3 * (x * r)) _ _ hp3r h3xr
  -- plus the center
  have h4 : f32add (some 0) (some p3) = roundF32 (0 + p3) := by
    simp only [f32add, Option.some_bind]
  rw [h4]
  have hp3a2 : |0 + p3| ≤ 3 + 268 / 10 ^ 8 := by rw [zero_add]; exact hp3a
  rcases roundF32_cases (0 + p3) _ hp3a2 with ⟨_, hbig⟩ | ⟨out, hout, houte⟩
  · exfalso
    norm_num at hbig
  refine ⟨out, hout, ?_⟩
  have e : out - 3 * (x * r) = (out - (0 + p3)) + (p3 - 3 * (x * r)) := by ring
  rw [e]
  refine le_trans (abs_add _ _) ?_
  linarith

/-- The constraint step as `float` evaluates it, unfolded. -/
theorem constrainCameraF32_eq (pos : CameraPos) :
    constrainCameraF32 pos =
      if f32lt (f32sqrt (f32add
          (f32mul (f32sub (some pos.x) (some 0)) (f32sub (some pos.x) (some 0)))
          (f32mul (f32sub (some pos.z) (some 0)) (f32sub (some pos.z) (some 0))))) (some 3) then
        ⟨f32add (some 0) (f32mul (f32mul (f32sub (some pos.x) (some 0))
            (f32div (some 1) (f32sqrt (f32add
              (f32mul (f32sub (some pos.x) (some 0)) (f32sub (some pos.x) (some 0)))
              (f32mul (f32sub (some pos.z) (some 0)) (f32sub (some pos.z) (some 0)))))))
            (some 3)),
          clampY pos.y,
          f32add (some 0) (f32mul (f32mul (f32sub (some pos.z) (some 0))
            (f32div (some 1) (f32sqrt (f32add
              (f32mul (f32sub (some pos.x) (some 0)) (f32sub (some pos.x) (some 0)))
              (f32mul (f32sub (some pos.z) (some 0)) (f32sub (some pos.z) (some 0)))))))
            (some 3))⟩
      else ⟨some pos.x, clampY pos.y, some pos.z⟩ :=
  rfl

/-- The constraint step as `float` evaluates it, for a camera at horizontal distance at
least 0.001 from the axis: the camera keeps its place, and is then at distance at least
2.999998, or it is moved to finite coordinates within `3e-6` of the exact push
`3 / d * (x, z)`, and was then at distance at most 3.000002. -/
theorem constrainCameraF32_cases (pos : CameraPos) (hD : 1 / 1000 ≤ axisDistance pos) :
    (constrainCameraF32 pos = ⟨some pos.x, clampY pos.y, some pos.z⟩ ∧
        2999998 / 1000000 ≤ axisDistance pos) ∨
      ∃ ox oz, constrainCameraF32 pos = ⟨some ox, clampY pos.y, some oz⟩ ∧
        |ox - 3 / axisDistance pos * pos.x| ≤ 3 / 10 ^ 6 ∧
        |oz - 3 / axisDistance pos * pos.z| ≤ 3 / 10 ^ 6 ∧
        axisDistance pos ≤ 3000002 / 1000000 := by
  unfold axisDistance at *
  rw [constrainCameraF32_eq]
  have hx := abs_le_length_x pos.x pos.z
  have hz := abs_le_length_z pos.x pos.z
  rcases offF32_cases pos.x _ hx hD with ⟨hn, hbig⟩ | ⟨X, hX, hXe⟩
  · left
    rw [hn]
    exact ⟨rfl, by linarith⟩
  rcases offF32_cases pos.z _ hz hD with ⟨hn, hbig⟩ | ⟨Z, hZ, hZe⟩
  · left
    rw [hn, hX]
    refine ⟨?_, by linarith⟩
    simp only [f32mul, f32add, f32sqrt, f32lt, Option.some_bind, Option.none_bind]
    split <;> simp_all
  rw [hX, hZ]
  rcases distF32_cases pos.x pos.z X Z hD hXe hZe with ⟨hn, hbig⟩ | ⟨g, hg, hge⟩
  · left
    rw [hn]
    exact ⟨rfl, by linarith⟩
  rw [hg]
  have hge2 := abs_le.1 hge
  by_cases hlt : g < 3
  · right
    have hD4 : length ⟨pos.x, pos.z⟩ ≤ 3000002 / 1000000 := by linarith
    obtain ⟨ox, hox, hoxe⟩ := pushF32_coord pos.x X g _ hD (by linarith) hx hXe hge
    obtain ⟨oz, hoz, hoze⟩ := pushF32_coord pos.z Z g _ hD (by linarith) hz hZe hge
    refine ⟨ox, oz, ?_, hoxe, hoze, hD4⟩
    rw [hox, hoz]
    simp only [f32lt, hlt, decide_True, if_true]
  · left
    refine ⟨?_, by linarith⟩
    simp only [f32lt, hlt, decide_False, Bool.false_eq_true, if_false]

/-- A vector within `3e-6`, in each coordinate, of a vector of length 3 has its length
within `1e-5` of 3. -/
theorem length_near (a b a0 b0 : ℝ) (h0 : a0 * a0 + b0 * b0 = 9)
    (ha : |a - a0| ≤ 3 / 10 ^ 6) (hb : |b - b0| ≤ 3 / 10 ^ 6) :
    |length ⟨a, b⟩ - 3| ≤ 1 / 100000 := by
  have ha0 : |a0| ≤ 3 := by
    rw [abs_le]
    constructor <;> nlinarith [mul_self_nonneg b0]
  have hb0 : |b0| ≤ 3 := by
    rw [abs_le]
    constructor <;> nlinarith [mul_self_nonneg a0]
  have haa := abs_le_of_near a a0 _ _ ha ha0
  have hbb := abs_le_of_near b b0 _ _ hb hb0
  have h1 := abs_le.1 (abs_mul_sub_le a a0 a a0 _ _ 3 _ ha ha ha0 haa)
  have h2 := abs_le.1 (abs_mul_sub_le b b0 b b0 _ _ 3 _ hb hb hb0 hbb)
  unfold length
  simp only
  rw [abs_le]
  constructor
  · have : (299999 / 100000 : ℝ) ≤ Real.sqrt (a * a + b * b) := by
      apply Real.le_sqrt_of_sq_le
      linarith
    linarith
  · have : Real.sqrt (a * a + b * b) ≤ 300001 / 100000 := by
      rw [Real.sqrt_le_iff]
      constructor
      · norm_num
      · linarith
    linarith

/-- The horizontal result of the constraint step as `float` evaluates it, for a camera at
distance at least 0.001 from the axis: finite coordinates at distance at least 2.99999
from the axis and, for a camera that was inside the radius, within 0.00002 of distance 3
and within 0.00001, in each coordinate, of the exact push `3 / d * (x, z)`. -/
theorem constrainCameraF32_horizontal (pos : CameraPos) (hD : 1 / 1000 ≤ axisDistance pos) :
    ∃ ox oz, (constrainCameraF32 pos).x = some ox ∧ (constrainCameraF32 pos).z = some oz ∧
      299999 / 100000 ≤ length ⟨ox, oz⟩ ∧
      (axisDistance pos < 3 → |length ⟨ox, oz⟩ - 3| ≤ 2 / 100000 ∧
        |ox - 3 / axisDistance pos * pos.x| ≤ 1 / 100000 ∧
        |oz - 3 / axisDistance pos * pos.z| ≤ 1 / 100000) := by
  have hpos : 0 < axisDistance pos := by linarith
  rcases constrainCameraF32_cases pos hD with ⟨heq, hge⟩ | ⟨ox, oz, heq, hox, hoz, hle⟩
  · refine ⟨pos.x, pos.z, by rw [heq], by rw [heq], ?_, fun hlt => ?_⟩
    · have : axisDistance pos = length ⟨pos.x, pos.z⟩ := rfl
      linarith
    · have hx : |pos.x| ≤ axisDistance pos := abs_le_length_x pos.x pos.z
      have hz : |pos.z| ≤ axisDistance pos := abs_le_length_z pos.x pos.z
      have hd3 : |axisDistance pos - 3| ≤ 2 / 1000000 := by
        rw [abs_le]
        constructor <;> linarith
      have hcoord : ∀ t : ℝ, |t| ≤ axisDistance pos →
          |t - 3 / axisDistance pos * t| ≤ 1 / 100000 := by
        intro t ht
        have e : t - 3 / axisDistance pos * t = t / axisDistance pos * (axisDistance pos - 3) := by
          field_simp
          ring
        rw [e, abs_mul]
        have h1 : |t / axisDistance pos| ≤ 1 := by
          rw [abs_div, abs_of_pos hpos, div_le_one hpos]
          exact ht
        have := mul_le_mul h1 hd3 (abs_nonneg _) (by norm_num)
        linarith
      refine ⟨?_, hcoord _ hx, hcoord _ hz⟩
      have : axisDistance pos = length ⟨pos.x, pos.z⟩ := rfl
      rw [← this]
      linarith
  · have h9 : 3 / axisDistance pos * pos.x * (3 / axisDistance pos * pos.x)
        + 3 / axisDistance pos * pos.z * (3 / axisDistance pos * pos.z) = 9 := by
      have hs : axisDistance pos * axisDistance pos = pos.x * pos.x + pos.z * pos.z :=
        length_sq ⟨pos.x, pos.z⟩
      field_simp
      linear_combination (-9 : ℝ) * hs
    have hlen := abs_le.1 (length_near ox oz _ _ h9 hox hoz)
    refine ⟨ox, oz, by rw [heq], by rw [heq], by linarith, fun _ => ⟨?_, ?_, ?_⟩⟩
    · rw [abs_le]
      constructor <;> linarith
    · linarith
    · linarith

/-- C9, as the code behaves: for every camera position the constraint step leaves `y` in
`[0.2, 4.0]`, in exact arithmetic and as `float` evaluates it; and for every camera
position at horizontal distance at least 0.001 from the axis the position after the step
is at horizontal distance at least 2.99999 from the axis, in exact arithmetic and as
`float` evaluates it (where `x` and `z` then come out finite). -/
theorem free_camera_contained (pos : CameraPos) :
    (2 / 10 ≤ (constrainCamera pos).y ∧ (constrainCamera pos).y ≤ 4) ∧
      (2 / 10 ≤ (constrainCameraF32 pos).y ∧ (constrainCameraF32 pos).y ≤ 4) ∧
      (1 / 1000 ≤ axisDistance pos →
        (∃ xz, (constrainCamera pos).xz = some xz ∧ 299999 / 100000 ≤ length xz) ∧
          ∃ ox oz, (constrainCameraF32 pos).x = some ox ∧
            (constrainCameraF32 pos).z = some oz ∧ 299999 / 100000 ≤ length ⟨ox, oz⟩) := by
  have hy := clampY_mem pos.y
  simp only [carouselHeight] at hy
  refine ⟨hy, by rw [constrainCameraF32_y]; exact hy, fun hd => ⟨?_, ?_⟩⟩
  · have h0 : length ⟨pos.x, pos.z⟩ ≠ 0 := by
      have : (0 : ℝ) < length ⟨pos.x, pos.z⟩ := lt_of_lt_of_le (by norm_num) hd
      exact ne_of_gt this
    obtain ⟨xz, hxz, hlen⟩ := pushOut_exact ⟨pos.x, pos.z⟩ h0
    refine ⟨xz, hxz, le_trans ?_ hlen⟩
    norm_num [carouselRadius]
  · obtain ⟨ox, oz, hox, hoz, hlen, _⟩ := constrainCameraF32_horizontal pos hd
    exact ⟨ox, oz, hox, hoz, hlen⟩

/-- Witness of the amended C9 at the camera position `(1, 5, 0)`. -/
theorem free_camera_contained_witness :
    (∃ xz, (constrainCamera ⟨1, 5, 0⟩).xz = some xz ∧ 299999 / 100000 ≤ length xz) ∧
      ∃ ox oz, (constrainCameraF32 ⟨1, 5, 0⟩).x = some ox ∧
        (constrainCameraF32 ⟨1, 5, 0⟩).z = some oz ∧ 299999 / 100000 ≤ length ⟨ox, oz⟩ :=
  (free_camera_contained ⟨1, 5, 0⟩).2.2 (by
    have h : axisDistance ⟨1, 5, 0⟩ = 1 := by simp [axisDistance, length]
    rw [h]
    norm_num)

/-- C9 fails on a position the frame loop produces: from the initial camera `(0, 2, 8)`,
100 frames with W held end at `(0, 2, 3)`, and a frame with W and D held then moves the
camera to `(0.05f, 2, 2.95)` before the step; the step, as `float` evaluates it, pushes it
to `(0.050840154, 2, 2.9995692)`, at horizontal distance 2.999999995, below 3.0. -/
theorem free_camera_contained_counterexample :
    constrainCameraF32 ⟨13421773 / 268435456, 2, 12373197 / 4194304⟩ =
        ⟨some (3411825 / 67108864), clampY 2, some (12581105 / 4194304)⟩ ∧
      clampY 2 = 2 ∧
      ¬ (3 ≤ length ⟨3411825 / 67108864, 12581105 / 4194304⟩) := by
  have hox : roundF32 ((13421773 / 268435456) : ℝ) = some (13421773 / 268435456) :=
    roundF32_eq _ _ (-5) 13421773 (by norm_num) (by norm_num) (by norm_num) (by norm_num) (by norm_num)
      (by norm_num) (by norm_num) (by norm_num)
  have hoz : roundF32 ((12373197 / 4194304) : ℝ) = some (12373197 / 4194304) :=
    roundF32_eq _ _ (1) 12373197 (by norm_num) (by norm_num) (by norm_num) (by norm_num) (by norm_num)
      (by norm_num) (by norm_num) (by norm_num)
  have hxx : roundF32 ((13421773 / 268435456) * (13421773 / 268435456) : ℝ) = some (10737419 / 4294967296) :=
    roundF32_eq _ _ (-9) 10737419 (by norm_num) (by norm_num) (by norm_num) (by norm_num) (by norm_num)
      (by norm_num) (by norm_num) (by norm_num)
  have hzz : roundF32 ((12373197 / 4194304) * (12373197 / 4194304) : ℝ) = some (9125233 / 1048576) :=
    roundF32_eq _ _ (3) 9125233 (by norm_num) (by norm_num) (by norm_num) (by norm_num) (by norm_num)
      (by norm_num) (by norm_num) (by norm_num)
  have hdot : roundF32 ((10737419 / 4294967296) + (9125233 / 1048576) : ℝ) = some (4563927 / 524288) :=
    roundF32_eq _ _ (3) 9127854 (by norm_num) (by norm_num) (by norm_num) (by norm_num) (by norm_num)
      (by norm_num) (by norm_num) (by norm_num)
  have hdist : roundF32 (Real.sqrt (4563927 / 524288)) = some (6187487 / 2097152) :=
    roundF32_sqrt_eq _ _ (1) 12374974 (by norm_num) (by norm_num) (by norm_num) (by norm_num) (by norm_num)
      (by norm_num) (by norm_num) (by norm_num) (by norm_num)
  have hinv : roundF32 (1 / (6187487 / 2097152) : ℝ) = some (5686375 / 16777216) :=
    roundF32_eq _ _ (-2) 11372750 (by norm_num) (by norm_num) (by norm_num) (by norm_num) (by norm_num)
      (by norm_num) (by norm_num) (by norm_num)
  have hpx : roundF32 ((13421773 / 268435456) * (5686375 / 16777216) : ℝ) = some (1137275 / 67108864) :=
    roundF32_eq _ _ (-6) 9098200 (by norm_num) (by norm_num) (by norm_num) (by norm_num) (by norm_num)
      (by norm_num) (by norm_num) (by norm_num)
  have hpz : roundF32 ((12373197 / 4194304) * (5686375 / 16777216) : ℝ) = some (16774807 / 16777216) :=
    roundF32_eq _ _ (-1) 16774807 (by norm_num) (by norm_num) (by norm_num) (by norm_num) (by norm_num)
      (by norm_num) (by norm_num) (by norm_num)
  have hsx : roundF32 ((1137275 / 67108864) * 3 : ℝ) = some (3411825 / 67108864) :=
    roundF32_eq _ _ (-5) 13647300 (by norm_num) (by norm_num) (by norm_num) (by norm_num) (by norm_num)
      (by norm_num) (by norm_num) (by norm_num)
  have hsz : roundF32 ((16774807 / 16777216) * 3 : ℝ) = some (12581105 / 4194304) :=
    roundF32_eq _ _ (1) 12581105 (by norm_num) (by norm_num) (by norm_num) (by norm_num) (by norm_num)
      (by norm_num) (by norm_num) (by norm_num)
  have hfx : roundF32 ((3411825 / 67108864) : ℝ) = some (3411825 / 67108864) :=
    roundF32_eq _ _ (-5) 13647300 (by norm_num) (by norm_num) (by norm_num) (by norm_num) (by norm_num)
      (by norm_num) (by norm_num) (by norm_num)
  have hfz : roundF32 ((12581105 / 4194304) : ℝ) = some (12581105 / 4194304) :=
    roundF32_eq _ _ (1) 12581105 (by norm_num) (by norm_num) (by norm_num) (by norm_num) (by norm_num)
      (by norm_num) (by norm_num) (by norm_num)
  have hneg : ¬ (((4563927 / 524288) : ℝ) < 0) := by norm_num
  have hlt : (((6187487 / 2097152) : ℝ) < 3) := by norm_num
  have hne : ¬ (((6187487 / 2097152) : ℝ) = 0) := by norm_num
  refine ⟨?_, ?_, ?_⟩
  · simp only [constrainCameraF32, f32sub, f32add, f32mul, f32div, f32sqrt, f32lt,
    Option.some_bind, sub_zero, zero_add, hox, hoz, hxx, hzz, hdot, hneg, if_false, hdist,
    hlt, decide_True, if_true, hne, hinv, hpx, hpz, hsx, hsz, hfx, hfz]
  · norm_num [clampY, yFloor, carouselHeight]
  · rw [not_le, length, Real.sqrt_lt' (by norm_num)]
    norm_num

/-- C10, as the code behaves: a camera at horizontal distance `d` from the axis with
`0.001 ≤ d < 3.0` is moved to a position whose horizontal distance from the axis is
within 0.00002 of 3.0 and whose horizontal offset is within 0.00001, in each coordinate,
of the input offset scaled by `3 / d`, in exact arithmetic and as `float` evaluates it
(where `x` and `z` then come out finite). -/
theorem free_camera_pushed_to_radius (pos : CameraPos) (hlo : 1 / 1000 ≤ axisDistance pos)
    (hin : axisDistance pos < 3) :
    (∃ xz, (constrainCamera pos).xz = some xz ∧ |length xz - 3| ≤ 2 / 100000 ∧
        |xz.x - 3 / axisDistance pos * pos.x| ≤ 1 / 100000 ∧
        |xz.y - 3 / axisDistance pos * pos.z| ≤ 1 / 100000) ∧
      ∃ ox oz, (constrainCameraF32 pos).x = some ox ∧ (constrainCameraF32 pos).z = some oz ∧
        |length ⟨ox, oz⟩ - 3| ≤ 2 / 100000 ∧
        |ox - 3 / axisDistance pos * pos.x| ≤ 1 / 100000 ∧
        |oz - 3 / axisDistance pos * pos.z| ≤ 1 / 100000 := by
  have hpos : (0 : ℝ) < length ⟨pos.x, pos.z⟩ := lt_of_lt_of_le (by norm_num) hlo
  have h0 : length ⟨pos.x, pos.z⟩ ≠ 0 := ne_of_gt hpos
  have h3 : length ⟨pos.x, pos.z⟩ < carouselRadius := hin
  have hlen := length_rescaled ⟨pos.x, pos.z⟩ carouselRadius (by norm_num [carouselRadius]) h0
  refine ⟨⟨_, pushOut_inside ⟨pos.x, pos.z⟩ h0 h3, ?_, ?_, ?_⟩, ?_⟩
  · rw [hlen]
    norm_num [carouselRadius]
  · have : (0 : ℝ) + pos.x / length ⟨pos.x, pos.z⟩ * carouselRadius
        - 3 / axisDistance pos * pos.x = 0 := by
      simp only [axisDistance, carouselRadius]
      field_simp
      ring
    simp only [this, abs_zero]
    norm_num
  · have : (0 : ℝ) + pos.z / length ⟨pos.x, pos.z⟩ * carouselRadius
        - 3 / axisDistance pos * pos.z = 0 := by
      simp only [axisDistance, carouselRadius]
      field_simp
      ring
    simp only [this, abs_zero]
    norm_num
  · obtain ⟨ox, oz, hox, hoz, _, hnear⟩ := constrainCameraF32_horizontal pos hlo
    exact ⟨ox, oz, hox, hoz, hnear hin⟩

/-- Witness of C10 at horizontal distance 1.0: the camera position `(1, 2, 0)`. -/
theorem free_camera_pushed_to_radius_witness :
    axisDistance ⟨1, 2, 0⟩ = 1 ∧
      ((∃ xz, (constrainCamera ⟨1, 2, 0⟩).xz = some xz ∧ |length xz - 3| ≤ 2 / 100000 ∧
          |xz.x - 3 / axisDistance ⟨1, 2, 0⟩ * 1| ≤ 1 / 100000 ∧
          |xz.y - 3 / axisDistance ⟨1, 2, 0⟩ * 0| ≤ 1 / 100000) ∧
        ∃ ox oz, (constrainCameraF32 ⟨1, 2, 0⟩).x = some ox ∧
          (constrainCameraF32 ⟨1, 2, 0⟩).z = some oz ∧
          |length ⟨ox, oz⟩ - 3| ≤ 2 / 100000 ∧
          |ox - 3 / axisDistance ⟨1, 2, 0⟩ * 1| ≤ 1 / 100000 ∧
          |oz - 3 / axisDistance ⟨1, 2, 0⟩ * 0| ≤ 1 / 100000) :=
  have h : axisDistance ⟨1, 2, 0⟩ = 1 := by simp [axisDistance, length]
  ⟨h, free_camera_pushed_to_radius ⟨1, 2, 0⟩ (by rw [h]; norm_num) (by rw [h]; norm_num)⟩

/-- The step, as `float` evaluates it, at the camera position `(2^-80, 2, 0)`, which is
off the axis: `x * x` underflows to zero, the length is zero, the push direction is
`x * (1 / 0)`, and `x` and `z` come out as an infinity or a NaN while `y` is clamped. -/
theorem constrainCameraF32_tiny :
    constrainCameraF32 ⟨(2 : ℝ) ^ (-80 : ℤ), 2, 0⟩ = ⟨none, clampY 2, none⟩ := by
  have hox : roundF32 ((2 : ℝ) ^ (-80 : ℤ)) = some ((2 : ℝ) ^ (-80 : ℤ)) :=
    roundF32_eq _ _ (-80) 8388608 (by norm_num) (by norm_num) (by norm_num) (by norm_num)
      (by norm_num) (by norm_num) (by norm_num) (by norm_num)
  have hxx : roundF32 ((2 : ℝ) ^ (-80 : ℤ) * (2 : ℝ) ^ (-80 : ℤ)) = some 0 :=
    roundF32_tiny _ (by positivity) (by norm_num)
  have hlt : ((0 : ℝ) < 3) := by norm_num
  simp only [constrainCameraF32, f32sub, f32add, f32mul, f32div, f32sqrt, f32lt,
    Option.some_bind, Option.none_bind, sub_zero, zero_add, mul_zero, hox, hxx,
    roundF32_zero, lt_irrefl, if_false, Real.sqrt_zero, hlt, decide_True, if_true]

/-- C10 fails at the camera position `(1, 2, 1)`, at horizontal distance 1.41 from the
axis: the step, as `float` evaluates it, yields `(2.1213202, 2, 2.1213202)`, whose
horizontal distance from the axis is 2.99999986, not 3.0. It also fails at
`(2^-80, 2, 0)`, at horizontal distance `2^-80 > 0`, where `x` and `z` come out as an
infinity or a NaN. -/
theorem free_camera_pushed_counterexample :
    0 < axisDistance ⟨1, 2, 1⟩ ∧ axisDistance ⟨1, 2, 1⟩ < 3 ∧
      constrainCameraF32 ⟨1, 2, 1⟩ =
        ⟨some (4448731 / 2097152), clampY 2, some (4448731 / 2097152)⟩ ∧
      length ⟨4448731 / 2097152, 4448731 / 2097152⟩ ≠ 3 ∧
      0 < axisDistance ⟨(2 : ℝ) ^ (-80 : ℤ), 2, 0⟩ ∧
      axisDistance ⟨(2 : ℝ) ^ (-80 : ℤ), 2, 0⟩ < 3 ∧
      constrainCameraF32 ⟨(2 : ℝ) ^ (-80 : ℤ), 2, 0⟩ = ⟨none, clampY 2, none⟩ := by
  have hox : roundF32 (1 : ℝ) = some 1 :=
    roundF32_eq _ _ (0) 8388608 (by norm_num) (by norm_num) (by norm_num) (by norm_num) (by norm_num)
      (by norm_num) (by norm_num) (by norm_num)
  have hxx : roundF32 (1 * 1 : ℝ) = some 1 :=
    roundF32_eq _ _ (0) 8388608 (by norm_num) (by norm_num) (by norm_num) (by norm_num) (by norm_num)
      (by norm_num) (by norm_num) (by norm_num)
  have hdot : roundF32 (1 + 1 : ℝ) = some 2 :=
    roundF32_eq _ _ (1) 8388608 (by norm_num) (by norm_num) (by norm_num) (by norm_num) (by norm_num)
      (by norm_num) (by norm_num) (by norm_num)
  have hdist : roundF32 (Real.sqrt 2) = some (11863283 / 8388608) :=
    roundF32_sqrt_eq _ _ (0) 11863283 (by norm_num) (by norm_num) (by norm_num) (by norm_num) (by norm_num)
      (by norm_num) (by norm_num) (by norm_num) (by norm_num)
  have hinv : roundF32 (1 / (11863283 / 8388608) : ℝ) = some (11863283 / 16777216) :=
    roundF32_eq _ _ (-1) 11863283 (by norm_num) (by norm_num) (by norm_num) (by norm_num) (by norm_num)
      (by norm_num) (by norm_num) (by norm_num)
  have hpx : roundF32 (1 * (11863283 / 16777216) : ℝ) = some (11863283 / 16777216) :=
    roundF32_eq _ _ (-1) 11863283 (by norm_num) (by norm_num) (by norm_num) (by norm_num) (by norm_num)
      (by norm_num) (by norm_num) (by norm_num)
  have hsx : roundF32 ((11863283 / 16777216) * 3 : ℝ) = some (4448731 / 2097152) :=
    roundF32_eq _ _ (1) 8897462 (by norm_num) (by norm_num) (by norm_num) (by norm_num) (by norm_num)
      (by norm_num) (by norm_num) (by norm_num)
  have hfx : roundF32 ((4448731 / 2097152) : ℝ) = some (4448731 / 2097152) :=
    roundF32_eq _ _ (1) 8897462 (by norm_num) (by norm_num) (by norm_num) (by norm_num) (by norm_num)
      (by norm_num) (by norm_num) (by norm_num)
  have hneg : ¬ ((2 : ℝ) < 0) := by norm_num
  have hlt : (((11863283 / 8388608) : ℝ) < 3) := by norm_num
  have hne : ¬ (((11863283 / 8388608) : ℝ) = 0) := by norm_num
  have hd : axisDistance ⟨1, 2, 1⟩ = Real.sqrt 2 := by
    simp only [axisDistance, length]
    norm_num
  have hd2 : axisDistance ⟨(2 : ℝ) ^ (-80 : ℤ), 2, 0⟩ = (2 : ℝ) ^ (-80 : ℤ) := by
    simp only [axisDistance, length, mul_zero, add_zero]
    exact Real.sqrt_mul_self (by positivity)
  refine ⟨?_, ?_, ?_, ?_, by rw [hd2]; positivity, by rw [hd2]; norm_num,
    constrainCameraF32_tiny⟩
  · rw [hd]
    exact Real.sqrt_pos.2 (by norm_num)
  · rw [hd, Real.sqrt_lt' (by norm_num)]
    norm_num
  · simp only [constrainCameraF32, f32sub, f32add, f32mul, f32div, f32sqrt, f32lt,
    Option.some_bind, sub_zero, zero_add, hox, hxx, hdot, hneg, if_false, hdist, hlt,
    decide_True, if_true, hne, hinv, hpx, hsx, hfx]
  · apply ne_of_lt
    rw [length, Real.sqrt_lt' (by norm_num)]
    norm_num

/-! ## Clustering with the `float` distance test: error bound, lemmas and claims -/

/-- A real within a relative error `ε` of `D * D` has its square root within the relative
error `ε / 2 + ε * ε` of `D`. -/
theorem sqrt_near_half (s D ε : ℝ) (hD : 0 < D) (h0 : 0 ≤ ε) (h1 : ε ≤ 1 / 2)
    (h : |s - D * D| ≤ ε * (D * D)) : |Real.sqrt s - D| ≤ (ε / 2 + ε * ε) * D := by
  have hs := abs_le.1 h
  have hDD : 0 ≤ D * D := mul_self_nonneg D
  have hk1 : 0 ≤ D * D * (ε * ε) := mul_nonneg hDD (mul_nonneg h0 h0)
  have hk2 : 0 ≤ D * D * (ε * ε) * (7 / 4 - ε - ε * ε) := by
    apply mul_nonneg hk1
    nlinarith
  have hk3 : 0 ≤ 1 - ε / 2 - ε * ε := by nlinarith
  rw [abs_le]
  constructor
  · have : D - (ε / 2 + ε * ε) * D ≤ Real.sqrt s := by
      apply Real.le_sqrt_of_sq_le
      have e : (D - (ε / 2 + ε * ε) * D) ^ 2
          = D * D - ε * (D * D) - D * D * (ε * ε) * (7 / 4 - ε - ε * ε) := by ring
      rw [e]
      linarith
    linarith
  · have : Real.sqrt s ≤ D + ε / 2 * D := by
      rw [Real.sqrt_le_iff]
      constructor
      · have := mul_nonneg h0 hD.le
        linarith
      · have e : (D + ε / 2 * D) ^ 2 = D * D + ε * (D * D) + D * D * (ε * ε) / 4 := by ring
        rw [e]
        linarith
    have := mul_nonneg (mul_nonneg h0 h0) hD.le
    linarith

/-- The distance `length(pos - center)` of three coordinates, as `float` evaluates it from
the rounded differences: an overflow, for points far apart, or a number within a relative
error of `4.7e-7` of the exact distance `D`. -/
theorem dist3F32_cases (x y z X Y Z D : ℝ) (hD : 1 / 1000 ≤ D)
    (hsq : D * D = x * x + y * y + z * z) (hx : |x| ≤ D) (hy : |y| ≤ D) (hz : |z| ≤ D)
    (hX : |X - x| ≤ 7 / 10 ^ 8 * D) (hY : |Y - y| ≤ 7 / 10 ^ 8 * D)
    (hZ : |Z - z| ≤ 7 / 10 ^ 8 * D) :
    (f32sqrt (f32add (f32add (f32mul (some X) (some X)) (f32mul (some Y) (some Y)))
        (f32mul (some Z) (some Z))) = none ∧ 4 < D) ∨
      ∃ g, f32sqrt (f32add (f32add (f32mul (some X) (some X)) (f32mul (some Y) (some Y)))
        (f32mul (some Z) (some Z))) = some g ∧ |g - D| ≤ 47 / 10 ^ 8 * D := by
  have hDD : 1 / 10 ^ 6 ≤ D * D := by nlinarith
  have hDpos : 0 < D := by linarith
  have hbig4 : ∀ k : ℝ, k ≤ 2 → 10 ^ 30 < k * (D * D) → 4 < D := by
    intro k hk hbig
    by_contra h4
    push_neg at h4
    have h16 : D * D ≤ 16 := by nlinarith
    have : k * (D * D) ≤ 2 * (D * D) := mul_le_mul_of_nonneg_right hk (by linarith)
    linarith
  rcases sqF32_cases x X D hx hD hX with ⟨hn, hbig⟩ | ⟨a, ha, hae⟩
  · left
    rw [hn]
    exact ⟨rfl, hbig⟩
  rcases sqF32_cases y Y D hy hD hY with ⟨hn, hbig⟩ | ⟨b, hb, hbe⟩
  · left
    rw [ha, hn]
    exact ⟨rfl, hbig⟩
  rcases sqF32_cases z Z D hz hD hZ with ⟨hn, hbig⟩ | ⟨c, hc, hce⟩
  · left
    rw [ha, hb, hn]
    refine ⟨?_, hbig⟩
    simp only [f32add, f32sqrt, Option.some_bind, Option.bind_none, Option.none_bind,
      Option.bind_eq_none]
  rw [ha, hb, hc]
  have h1 : f32add (some a) (some b) = roundF32 (a + b) := by
    simp only [f32add, Option.some_bind]
  rw [h1]
  have hxy0 : 0 ≤ x * x + y * y := add_nonneg (mul_self_nonneg x) (mul_self_nonneg y)
  have hxyD : |x * x + y * y| ≤ D * D := by
    rw [abs_of_nonneg hxy0]
    nlinarith [mul_self_nonneg z]
  have hab : |a + b - (x * x + y * y)| ≤ 44 / 10 ^ 8 * (D * D) := by
    have e : a + b - (x * x + y * y) = (a - x * x) + (b - y * y) := by ring
    rw [e]
    refine le_trans (abs_add _ _) ?_
    linarith
  have habm := abs_le_of_near (a + b) _ _ _ hab hxyD
  rcases roundF32_cases (a + b) _ habm with ⟨hn, hbig⟩ | ⟨s1, hs1, hs1e⟩
  · left
    rw [hn]
    refine ⟨rfl, hbig4 (1 + 44 / 10 ^ 8) (by norm_num) (by linarith)⟩
  rw [hs1]
  have h2 : f32add (some s1) (some c) = roundF32 (s1 + c) := by
    simp only [f32add, Option.some_bind]
  rw [h2]
  have hs1c : |s1 + c - D * D| ≤ 73 / 10 ^ 8 * (D * D) := by
    have e : s1 + c - D * D = (s1 - (a + b)) + (a + b - (x * x + y * y)) + (c - z * z) := by
      rw [hsq]
      ring
    rw [e]
    refine le_trans (abs_add _ _) ?_
    have := abs_add (s1 - (a + b)) (a + b - (x * x + y * y))
    linarith
  have hDDa : |D * D| ≤ D * D := by rw [abs_of_nonneg (by linarith)]
  have hs1cm := abs_le_of_near (s1 + c) _ _ _ hs1c hDDa
  rcases roundF32_cases (s1 + c) _ hs1cm with ⟨hn, hbig⟩ | ⟨s, hs, hse⟩
  · left
    rw [hn]
    refine ⟨rfl, hbig4 (1 + 73 / 10 ^ 8) (by norm_num) (by linarith)⟩
  rw [hs]
  have hsD : |s - D * D| ≤ 80 / 10 ^ 8 * (D * D) := by
    have e : s - D * D = (s - (s1 + c)) + (s1 + c - D * D) := by ring
    rw [e]
    refine le_trans (abs_add _ _) ?_
    linarith
  have hsD2 := abs_le.1 hsD
  have hs0 : ¬ s < 0 := by
    push_neg
    linarith
  have h3 : f32sqrt (some s) = roundF32 (Real.sqrt s) := by
    simp only [f32sqrt, Option.some_bind, if_neg hs0]
  rw [h3]
  have hq := sqrt_near_half s D _ hDpos (by norm_num) (by norm_num) hsD
  have hDa : |D| ≤ D := by rw [abs_of_pos hDpos]
  have hqm := abs_le_of_near (Real.sqrt s) D _ _ hq hDa
  rcases roundF32_cases (Real.sqrt s) _ hqm with ⟨hn, hbig⟩ | ⟨g, hg, hge⟩
  · left
    refine ⟨hn, ?_⟩
    linarith
  · right
    refine ⟨g, hg, ?_⟩
    have e : g - D = (g - Real.sqrt s) + (Real.sqrt s - D) := by ring
    rw [e]
    refine le_trans (abs_add _ _) ?_
    linarith

/-- The squared distance of two vertices, in the reals, from the coordinate differences. -/
theorem dist2_cast (c p : Vec3) : ((dist2 c p : ℚ) : ℝ)
    = ((p.x : ℝ) - c.x) * ((p.x : ℝ) - c.x) + ((p.y : ℝ) - c.y) * ((p.y : ℝ) - c.y)
      + ((p.z : ℝ) - c.z) * ((p.z : ℝ) - c.z) := by
  unfold dist2
  push_cast
  ring

/-- A vertex that passes the `float` test of the inner loop is at exact distance below
0.1500001 from the center. -/
theorem nearF32_dist (c p : Vec3) (h : nearF32 c p = true) :
    Real.sqrt ((dist2 c p : ℚ) : ℝ) < (1500001 / 10000000 : ℝ) := by
  by_contra hfar
  push_neg at hfar
  have hsq0 : (0 : ℝ) ≤ ((dist2 c p : ℚ) : ℝ) := by
    exact_mod_cast dist2_nonneg c p
  have hsq : Real.sqrt ((dist2 c p : ℚ) : ℝ) * Real.sqrt ((dist2 c p : ℚ) : ℝ)
      = ((p.x : ℝ) - c.x) * ((p.x : ℝ) - c.x) + ((p.y : ℝ) - c.y) * ((p.y : ℝ) - c.y)
        + ((p.z : ℝ) - c.z) * ((p.z : ℝ) - c.z) := by
    rw [Real.mul_self_sqrt hsq0, dist2_cast]
  have hx : |(p.x : ℝ) - c.x| ≤ Real.sqrt ((dist2 c p : ℚ) : ℝ) := by
    apply Real.abs_le_sqrt
    rw [dist2_cast]
    nlinarith [mul_self_nonneg ((p.y : ℝ) - c.y), mul_self_nonneg ((p.z : ℝ) - c.z)]
  have hy : |(p.y : ℝ) - c.y| ≤ Real.sqrt ((dist2 c p : ℚ) : ℝ) := by
    apply Real.abs_le_sqrt
    rw [dist2_cast]
    nlinarith [mul_self_nonneg ((p.x : ℝ) - c.x), mul_self_nonneg ((p.z : ℝ) - c.z)]
  have hz : |(p.z : ℝ) - c.z| ≤ Real.sqrt ((dist2 c p : ℚ) : ℝ) := by
    apply Real.abs_le_sqrt
    rw [dist2_cast]
    nlinarith [mul_self_nonneg ((p.x : ℝ) - c.x), mul_self_nonneg ((p.y : ℝ) - c.y)]
  generalize Real.sqrt ((dist2 c p : ℚ) : ℝ) = D at *
  have hD : 1 / 1000 ≤ D := by linarith
  have hthr : ((clusterThreshold : ℚ) : ℝ) = 5033165 / 33554432 := by
    unfold clusterThreshold
    norm_num
  unfold nearF32 at h
  simp only [f32sub, Option.some_bind, hthr] at h
  rcases roundF32_cases ((p.x : ℝ) - c.x) D hx with ⟨hn, _⟩ | ⟨X, hX, hXe⟩
  · rw [hn] at h
    simp [f32mul, f32add, f32sqrt, f32lt] at h
  rcases roundF32_cases ((p.y : ℝ) - c.y) D hy with ⟨hn, _⟩ | ⟨Y, hY, hYe⟩
  · rw [hn] at h
    simp [f32mul, f32add, f32sqrt, f32lt] at h
  rcases roundF32_cases ((p.z : ℝ) - c.z) D hz with ⟨hn, _⟩ | ⟨Z, hZ, hZe⟩
  · rw [hn] at h
    simp [f32mul, f32add, f32sqrt, f32lt] at h
  rw [hX, hY, hZ] at h
  rcases dist3F32_cases _ _ _ X Y Z D hD hsq hx hy hz (by linarith) (by linarith) (by linarith)
    with ⟨hn, _⟩ | ⟨g, hg, hge⟩
  · rw [hn] at h
    simp [f32lt] at h
  · rw [hg] at h
    simp only [f32lt, decide_eq_true_eq] at h
    have := abs_le.1 hge
    linarith

/-- The inner loop with the `float` test finds a cluster exactly when some center passes the
test. -/
theorem foundClusterF32_eq_true_iff (cs : List Vec3) (pos : Vec3) :
    foundClusterF32 cs pos = true ↔ ∃ c ∈ cs, nearF32 c pos = true := by
  induction cs with
  | nil => simp [foundClusterF32]
  | cons c rest ih =>
    by_cases h : nearF32 c pos = true
    · simp [foundClusterF32, h]
    · simp [foundClusterF32, h, ih]

/-- The first vertex scanned always opens a cluster, also with the `float` test. -/
theorem clusterCentersF32_cons (v : Vec3) (vs : List Vec3) :
    clusterCentersF32 (v :: vs) = clusterLoopF32 vs [v] := by
  simp [clusterCentersF32, clusterLoopF32, foundClusterF32]

/-- The loop with the `float` test only appends. -/
theorem clusterLoopF32_extends (vs cs : List Vec3) : cs <+: clusterLoopF32 vs cs := by
  induction vs generalizing cs with
  | nil => exact List.prefix_refl _
  | cons pos rest ih =>
    unfold clusterLoopF32
    split
    · exact ih cs
    · split
      · exact List.prefix_append _ _
      · exact (List.prefix_append cs [pos]).trans (ih _)

/-- The loop with the `float` test returns its starting centers followed by a subsequence
of the vertices. -/
theorem clusterLoopF32_sublist (vs cs : List Vec3) :
    ∃ l, clusterLoopF32 vs cs = cs ++ l ∧ l.Sublist vs := by
  induction vs generalizing cs with
  | nil => exact ⟨[], by simp [clusterLoopF32], List.Sublist.slnil⟩
  | cons pos rest ih =>
    unfold clusterLoopF32
    split
    · obtain ⟨l, hl, hsub⟩ := ih cs
      exact ⟨l, hl, hsub.cons pos⟩
    · split
      · exact ⟨[pos], rfl, (List.singleton_sublist.2 (List.mem_cons_self _ _))⟩
      · obtain ⟨l, hl, hsub⟩ := ih (cs ++ [pos])
        exact ⟨pos :: l, by rw [hl, List.append_assoc]; rfl, hsub.cons₂ pos⟩

/-- When the loop with the `float` test ends below the cap, every vertex scanned is a
center or passes the test against a center. -/
theorem clusterLoopF32_covers (vs cs : List Vec3)
    (hlt : (clusterLoopF32 vs cs).length < 64) :
    ∀ v ∈ vs, v ∈ clusterLoopF32 vs cs ∨ ∃ c ∈ clusterLoopF32 vs cs, nearF32 c v = true := by
  induction vs generalizing cs with
  | nil => intro v hv; simp at hv
  | cons pos rest ih =>
    intro v hv
    unfold clusterLoopF32 at hlt ⊢
    split at hlt
    · rename_i hf
      rw [if_pos hf]
      rcases List.mem_cons.1 hv with rfl | hrest
      · obtain ⟨c, hc, hnear⟩ := (foundClusterF32_eq_true_iff cs v).1 hf
        exact Or.inr ⟨c, (clusterLoopF32_extends rest cs).subset hc, hnear⟩
      · exact ih cs hlt v hrest
    · rename_i hf
      rw [if_neg hf]
      split at hlt
      · rename_i hge
        omega
      · rename_i hge
        rw [if_neg hge]
        rcases List.mem_cons.1 hv with rfl | hrest
        · exact Or.inl ((clusterLoopF32_extends rest (cs ++ [v])).subset (by simp))
        · exact ih _ hlt v hrest

/-- The `float` test of the inner loop at the center `(0,0,0)` and the vertex
`(0.1,0,0)`: the distance comes out as `0.1f`, below the threshold. -/
theorem nearF32_origin_tenth : nearF32 ⟨0, 0, 0⟩ ⟨1 / 10, 0, 0⟩ = true := by
  have hudx : roundF32 ((1 / 10) : ℝ) = some (13421773 / 134217728) :=
    roundF32_eq _ _ (-4) 13421773 (by norm_num) (by norm_num) (by norm_num) (by norm_num) (by norm_num)
      (by norm_num) (by norm_num) (by norm_num)
  have husx : roundF32 ((13421773 / 134217728) * (13421773 / 134217728) : ℝ) = some (10737419 / 1073741824) :=
    roundF32_eq _ _ (-7) 10737419 (by norm_num) (by norm_num) (by norm_num) (by norm_num) (by norm_num)
      (by norm_num) (by norm_num) (by norm_num)
  have hua1 : roundF32 ((10737419 / 1073741824) : ℝ) = some (10737419 / 1073741824) :=
    roundF32_eq _ _ (-7) 10737419 (by norm_num) (by norm_num) (by norm_num) (by norm_num) (by norm_num)
      (by norm_num) (by norm_num) (by norm_num)
  have hug : roundF32 (Real.sqrt (10737419 / 1073741824)) = some (13421773 / 134217728) :=
    roundF32_sqrt_eq _ _ (-4) 13421773 (by norm_num) (by norm_num) (by norm_num) (by norm_num) (by norm_num)
      (by norm_num) (by norm_num) (by norm_num) (by norm_num)
  have hneg : ¬ ((10737419 / 1073741824 : ℝ) < 0) := by norm_num
  have hlt : (13421773 / 134217728 : ℝ) < 5033165 / 33554432 := by norm_num
  have hthr : ((clusterThreshold : ℚ) : ℝ) = 5033165 / 33554432 := by
    unfold clusterThreshold
    norm_num
  simp only [nearF32, f32sub, f32add, f32mul, f32sqrt, f32lt, Option.some_bind, hthr,
    Rat.cast_zero, Rat.cast_div, Rat.cast_one, Rat.cast_ofNat, sub_zero, mul_zero, add_zero,
    roundF32_zero, hudx, husx, hua1, hneg, if_false, hug, hlt, decide_True]

/-- The `float` test of the inner loop at the center `(0,0,0)` and the vertex `(1,0,0)`:
the distance comes out as 1, not below the threshold. -/
theorem nearF32_origin_one : nearF32 ⟨0, 0, 0⟩ ⟨1, 0, 0⟩ = false := by
  have hvdx : roundF32 (1 : ℝ) = some 1 :=
    roundF32_eq _ _ (0) 8388608 (by norm_num) (by norm_num) (by norm_num) (by norm_num) (by norm_num)
      (by norm_num) (by norm_num) (by norm_num)
  have hvg : roundF32 (Real.sqrt 1) = some 1 := by
    rw [Real.sqrt_one]
    exact hvdx
  have hneg : ¬ ((1 : ℝ) < 0) := by norm_num
  have hlt : ¬ ((1 : ℝ) < 5033165 / 33554432) := by norm_num
  have hthr : ((clusterThreshold : ℚ) : ℝ) = 5033165 / 33554432 := by
    unfold clusterThreshold
    norm_num
  simp only [nearF32, f32sub, f32add, f32mul, f32sqrt, f32lt, Option.some_bind, hthr,
    Rat.cast_zero, Rat.cast_one, sub_zero, mul_zero, mul_one, add_zero,
    roundF32_zero, hvdx, hneg, if_false, hvg, hlt, decide_False]

/-- The `float` test of the inner loop at the center `(0,0,0)` and the vertex
`(8586925/2^26, 2626581/2^25, 0)`: the distance comes out as 0.14999999, below the
threshold. -/
theorem nearF32_origin_edge :
    nearF32 ⟨0, 0, 0⟩ ⟨8586925 / 67108864, 2626581 / 33554432, 0⟩ = true := by
  have hcdx : roundF32 ((8586925 / 67108864) : ℝ) = some (8586925 / 67108864) :=
    roundF32_eq _ _ (-3) 8586925 (by norm_num) (by norm_num) (by norm_num) (by norm_num) (by norm_num)
      (by norm_num) (by norm_num) (by norm_num)
  have hcdy : roundF32 ((2626581 / 33554432) : ℝ) = some (2626581 / 33554432) :=
    roundF32_eq _ _ (-4) 10506324 (by norm_num) (by norm_num) (by norm_num) (by norm_num) (by norm_num)
      (by norm_num) (by norm_num) (by norm_num)
  have hcsx : roundF32 ((8586925 / 67108864) * (8586925 / 67108864) : ℝ) = some (4394965 / 268435456) :=
    roundF32_eq _ _ (-6) 8789930 (by norm_num) (by norm_num) (by norm_num) (by norm_num) (by norm_num)
      (by norm_num) (by norm_num) (by norm_num)
  have hcsy : roundF32 ((2626581 / 33554432) * (2626581 / 33554432) : ℝ) = some (3289665 / 536870912) :=
    roundF32_eq _ _ (-8) 13158660 (by norm_num) (by norm_num) (by norm_num) (by norm_num) (by norm_num)
      (by norm_num) (by norm_num) (by norm_num)
  have hca1 : roundF32 ((4394965 / 268435456) + (3289665 / 536870912) : ℝ) = some (12079595 / 536870912) :=
    roundF32_eq _ _ (-6) 12079595 (by norm_num) (by norm_num) (by norm_num) (by norm_num) (by norm_num)
      (by norm_num) (by norm_num) (by norm_num)
  have hca2 : roundF32 ((12079595 / 536870912) : ℝ) = some (12079595 / 536870912) :=
    roundF32_eq _ _ (-6) 12079595 (by norm_num) (by norm_num) (by norm_num) (by norm_num) (by norm_num)
      (by norm_num) (by norm_num) (by norm_num)
  have hcg : roundF32 (Real.sqrt (12079595 / 536870912)) = some (10066329 / 67108864) :=
    roundF32_sqrt_eq _ _ (-3) 10066329 (by norm_num) (by norm_num) (by norm_num) (by norm_num) (by norm_num)
      (by norm_num) (by norm_num) (by norm_num) (by norm_num)
  have hneg : ¬ ((12079595 / 536870912 : ℝ) < 0) := by norm_num
  have hlt : (10066329 / 67108864 : ℝ) < 5033165 / 33554432 := by norm_num
  have hthr : ((clusterThreshold : ℚ) : ℝ) = 5033165 / 33554432 := by
    unfold clusterThreshold
    norm_num
  simp only [nearF32, f32sub, f32add, f32mul, f32sqrt, f32lt, Option.some_bind, hthr,
    Rat.cast_zero, Rat.cast_div, Rat.cast_ofNat, sub_zero, mul_zero, add_zero,
    roundF32_zero, hcdx, hcdy, hcsx, hcsy, hca1, hca2, hneg, if_false, hcg, hlt, decide_True]

/-- The loop with the `float` test on the vertices `(0,0,0)`, `(0.1,0,0)`, `(1,0,0)`. -/
theorem clusterCentersF32_three :
    clusterCentersF32 [⟨0, 0, 0⟩, ⟨1 / 10, 0, 0⟩, ⟨1, 0, 0⟩] = [⟨0, 0, 0⟩, ⟨1, 0, 0⟩] := by
  simp only [clusterCentersF32, clusterLoopF32, foundClusterF32, nearF32_origin_tenth,
    nearF32_origin_one, List.nil_append, List.cons_append, List.length_cons, List.length_nil,
    if_true, if_false, Bool.false_eq_true, ge_iff_le, Nat.reduceAdd, Nat.reduceLeDiff]

/-- The loop with the `float` test skips the vertex `(8586925/2^26, 2626581/2^25, 0)`. -/
theorem clusterCentersF32_edge :
    clusterCentersF32 [⟨0, 0, 0⟩, ⟨8586925 / 67108864, 2626581 / 33554432, 0⟩]
      = [⟨0, 0, 0⟩] := by
  simp only [clusterCentersF32, clusterLoopF32, foundClusterF32, nearF32_origin_edge,
    List.nil_append, List.cons_append, List.length_cons, List.length_nil,
    if_true, if_false, Bool.false_eq_true, ge_iff_le, Nat.reduceAdd, Nat.reduceLeDiff]

/-- The vertex `(8586925/2^26, 2626581/2^25, 0)` is neither the center `(0,0,0)` nor at
distance below 0.15 from it. -/
theorem edge_vertex_uncovered :
    ¬ ∀ v ∈ ([⟨0, 0, 0⟩, ⟨8586925 / 67108864, 2626581 / 33554432, 0⟩] : List Vec3),
        v ∈ ([⟨0, 0, 0⟩] : List Vec3) ∨
          ∃ c ∈ ([⟨0, 0, 0⟩] : List Vec3), Real.sqrt ((dist2 c v : ℚ) : ℝ) < (15 / 100 : ℝ) := by
  intro h
  rcases h ⟨8586925 / 67108864, 2626581 / 33554432, 0⟩ (by simp) with hmem | ⟨c, hcm, hlt⟩
  · simp only [List.mem_singleton, Vec3.mk.injEq] at hmem
    norm_num at hmem
  · rw [List.mem_singleton] at hcm
    subst hcm
    have hge : (15 / 100 : ℝ) ≤
        Real.sqrt ((dist2 ⟨0, 0, 0⟩ ⟨8586925 / 67108864, 2626581 / 33554432, 0⟩ : ℚ) : ℝ) := by
      apply Real.le_sqrt_of_sq_le
      norm_num [dist2]
    linarith

/-- C20, as the code behaves: the cluster-center list is a subsequence of the vertex
list, it starts with the first vertex when there is one, and when it has fewer than 64
entries every input vertex is a cluster center or is at distance below 0.1500001 from
one (the threshold of the code is the `float` 0.15f, above 0.15); with the distance test
in exact arithmetic (`clusterCenters`) and as `float` evaluates it (`clusterCentersF32`). -/
theorem cluster_centers_subsequence_cover (vertices : List Vec3) :
    ((clusterCenters vertices).Sublist vertices ∧
      (clusterCenters vertices).head? = vertices.head? ∧
      ((clusterCenters vertices).length < 64 →
        ∀ v ∈ vertices, v ∈ clusterCenters vertices ∨
          ∃ c ∈ clusterCenters vertices,
            Real.sqrt ((dist2 c v : ℚ) : ℝ) < (1500001 / 10000000 : ℝ))) ∧
    ((clusterCentersF32 vertices).Sublist vertices ∧
      (clusterCentersF32 vertices).head? = vertices.head? ∧
      ((clusterCentersF32 vertices).length < 64 →
        ∀ v ∈ vertices, v ∈ clusterCentersF32 vertices ∨
          ∃ c ∈ clusterCentersF32 vertices,
            Real.sqrt ((dist2 c v : ℚ) : ℝ) < (1500001 / 10000000 : ℝ))) := by
  refine ⟨⟨?_, ?_, ?_⟩, ⟨?_, ?_, ?_⟩⟩
  · obtain ⟨l, hl, hsub⟩ := clusterLoop_sublist vertices []
    rw [clusterCenters, hl]
    simpa using hsub
  · cases vertices with
    | nil => rfl
    | cons v vs =>
      obtain ⟨t, ht⟩ := clusterLoop_extends vs [v]
      rw [clusterCenters_cons, ← ht]
      rfl
  · intro hlt v hv
    rcases clusterLoop_covers vertices [] hlt v hv with h | ⟨c, hc, hnear⟩
    · exact Or.inl h
    · refine Or.inr ⟨c, hc, lt_trans ((near_iff_sqrt c v).1 hnear) ?_⟩
      norm_num
  · obtain ⟨l, hl, hsub⟩ := clusterLoopF32_sublist vertices []
    rw [clusterCentersF32, hl]
    simpa using hsub
  · cases vertices with
    | nil => rfl
    | cons v vs =>
      obtain ⟨t, ht⟩ := clusterLoopF32_extends vs [v]
      rw [clusterCentersF32_cons, ← ht]
      rfl
  · intro hlt v hv
    rcases clusterLoopF32_covers vertices [] hlt v hv with h | ⟨c, hc, hnear⟩
    · exact Or.inl h
    · exact Or.inr ⟨c, hc, nearF32_dist c v hnear⟩

/-- Witness of C20 on the vertices `(0,0,0)`, `(0.1,0,0)`, `(1,0,0)`, which give the two
centers `(0,0,0)` and `(1,0,0)` with either distance test. -/
theorem cluster_centers_subsequence_cover_witness :
    (clusterCenters [⟨0, 0, 0⟩, ⟨1 / 10, 0, 0⟩, ⟨1, 0, 0⟩] = [⟨0, 0, 0⟩, ⟨1, 0, 0⟩] ∧
      ∀ v ∈ ([⟨0, 0, 0⟩, ⟨1 / 10, 0, 0⟩, ⟨1, 0, 0⟩] : List Vec3),
        v ∈ clusterCenters [⟨0, 0, 0⟩, ⟨1 / 10, 0, 0⟩, ⟨1, 0, 0⟩] ∨
          ∃ c ∈ clusterCenters [⟨0, 0, 0⟩, ⟨1 / 10, 0, 0⟩, ⟨1, 0, 0⟩],
            Real.sqrt ((dist2 c v : ℚ) : ℝ) < (1500001 / 10000000 : ℝ)) ∧
    (clusterCentersF32 [⟨0, 0, 0⟩, ⟨1 / 10, 0, 0⟩, ⟨1, 0, 0⟩] = [⟨0, 0, 0⟩, ⟨1, 0, 0⟩] ∧
      ∀ v ∈ ([⟨0, 0, 0⟩, ⟨1 / 10, 0, 0⟩, ⟨1, 0, 0⟩] : List Vec3),
        v ∈ clusterCentersF32 [⟨0, 0, 0⟩, ⟨1 / 10, 0, 0⟩, ⟨1, 0, 0⟩] ∨
          ∃ c ∈ clusterCentersF32 [⟨0, 0, 0⟩, ⟨1 / 10, 0, 0⟩, ⟨1, 0, 0⟩],
            Real.sqrt ((dist2 c v : ℚ) : ℝ) < (1500001 / 10000000 : ℝ)) :=
  have hc : clusterCenters [⟨0, 0, 0⟩, ⟨1 / 10, 0, 0⟩, ⟨1, 0, 0⟩] = [⟨0, 0, 0⟩, ⟨1, 0, 0⟩] := by
    norm_num [clusterCenters, clusterLoop, foundCluster, near, dist2, clusterThreshold]
  have hf := clusterCentersF32_three
  ⟨⟨hc, (cluster_centers_subsequence_cover [⟨0, 0, 0⟩, ⟨1 / 10, 0, 0⟩, ⟨1, 0, 0⟩]).1.2.2
      (by rw [hc]; decide)⟩,
    ⟨hf, (cluster_centers_subsequence_cover [⟨0, 0, 0⟩, ⟨1 / 10, 0, 0⟩, ⟨1, 0, 0⟩]).2.2.2
      (by rw [hf]; decide)⟩⟩

/-- C20 fails on the two vertices `(0,0,0)` and `(8586925/2^26, 2626581/2^25, 0)`, which
are at distance 0.15000000025: the second passes the test against the first, in exact
arithmetic with the threshold 0.15f and as `float` evaluates it (the distance comes out
as 0.14999999), and is skipped, so the only center is `(0,0,0)`, and the skipped vertex is
neither a center nor at distance below 0.15 from one. -/
theorem cluster_centers_cover_counterexample :
    (clusterCenters [⟨0, 0, 0⟩, ⟨8586925 / 67108864, 2626581 / 33554432, 0⟩] = [⟨0, 0, 0⟩] ∧
      (clusterCenters [⟨0, 0, 0⟩, ⟨8586925 / 67108864, 2626581 / 33554432, 0⟩]).length < 64 ∧
      ¬ ∀ v ∈ ([⟨0, 0, 0⟩, ⟨8586925 / 67108864, 2626581 / 33554432, 0⟩] : List Vec3),
          v ∈ clusterCenters [⟨0, 0, 0⟩, ⟨8586925 / 67108864, 2626581 / 33554432, 0⟩] ∨
            ∃ c ∈ clusterCenters [⟨0, 0, 0⟩, ⟨8586925 / 67108864, 2626581 / 33554432, 0⟩],
              Real.sqrt ((dist2 c v : ℚ) : ℝ) < (15 / 100 : ℝ)) ∧
    (clusterCentersF32 [⟨0, 0, 0⟩, ⟨8586925 / 67108864, 2626581 / 33554432, 0⟩]
        = [⟨0, 0, 0⟩] ∧
      (clusterCentersF32
        [⟨0, 0, 0⟩, ⟨8586925 / 67108864, 2626581 / 33554432, 0⟩]).length < 64 ∧
      ¬ ∀ v ∈ ([⟨0, 0, 0⟩, ⟨8586925 / 67108864, 2626581 / 33554432, 0⟩] : List Vec3),
          v ∈ clusterCentersF32 [⟨0, 0, 0⟩, ⟨8586925 / 67108864, 2626581 / 33554432, 0⟩] ∨
            ∃ c ∈ clusterCentersF32
                [⟨0, 0, 0⟩, ⟨8586925 / 67108864, 2626581 / 33554432, 0⟩],
              Real.sqrt ((dist2 c v : ℚ) : ℝ) < (15 / 100 : ℝ)) := by
  have hc : clusterCenters [⟨0, 0, 0⟩, ⟨8586925 / 67108864, 2626581 / 33554432, 0⟩]
      = [⟨0, 0, 0⟩] := by
    norm_num [clusterCenters, clusterLoop, foundCluster, near, dist2, clusterThreshold]
  have hf := clusterCentersF32_edge
  refine ⟨⟨hc, by rw [hc]; decide, ?_⟩, ⟨hf, by rw [hf]; decide, ?_⟩⟩
  · rw [hc]
    exact edge_vertex_uncovered
  · rw [hf]
    exact edge_vertex_uncovered

end Carousel
